import Mathlib

/-!
Verification of the NetworkLink S2S protocol core.

This file gives a shallow embedding, in Lean 4, of the protocol layer of the
NetworkLink IRC services daemon, and proves properties of that embedding.

The embedded code comes from:
  * `protocols/ircs2s_common.py` — argument parsing (`parse_args`,
    `parse_prefixed_args`), SID/UID resolution (`_get_SID`, `_get_UID`),
    the inbound dispatcher `handle_events`, the SQUIT cascade `_squit`,
    and `check_nick_collision`;
  * `protocols/unreal.py` — outbound `mode` wrapping and the base64 IP
    codec used by `spawn_client` / `handle_uid`;
  * `protocols/ngircd.py` — `handle_ping` (end-of-burst detection).

Dictionaries become association lists (`List (String × _)`), preserving
insertion order, since the Python code iterates dictionaries in insertion
order and relies on first-match lookups.  Python exceptions become explicit
error values.  Methods that only read state are embedded as functions that
return the state unchanged together with their observable output.

Helpers that live outside the four source files (`_remove_client`,
`nick_to_uid`, `is_internal_client`, `is_internal_server`, `wrap_modes`,
`call_hooks`) are modelled from the specification; each such definition
carries a doc comment saying so.
-/

set_option autoImplicit false

universe u

/-- ASCII lowercasing of one character (Python `str.lower` restricted to
the ASCII range the protocols use). -/
def charLower (c : Char) : Char :=
  if 'A' ≤ c ∧ c ≤ 'Z' then Char.ofNat (c.toNat + 32) else c

/-- ASCII uppercasing of one character (Python `str.upper`). -/
def charUpper (c : Char) : Char :=
  if 'a' ≤ c ∧ c ≤ 'z' then Char.ofNat (c.toNat - 32) else c

/-- Python `s.lower()` (ASCII range). -/
def strLower (s : String) : String := String.mk (s.data.map charLower)

/-- Python `s.upper()` (ASCII range). -/
def strUpper (s : String) : String := String.mk (s.data.map charUpper)

/-- Python `s.split(sep)` on a character list: split at every separator,
keeping empty pieces (`"".split(sep) == ['']`). -/
def splitOnChar (sep : Char) : List Char → List (List Char)
  | [] => [[]]
  | c :: cs =>
    let r := splitOnChar sep cs
    if c = sep then [] :: r
    else
      match r with
      | [] => [[c]]
      | h :: t => (c :: h) :: t

/-- Python `s.split(sep)` for a one-character separator. -/
def splitStr (sep : Char) (s : String) : List String :=
  (splitOnChar sep s.data).map String.mk

/-- Python `s.startswith(':')`. -/
def startsWithColon (s : String) : Bool :=
  s.data.head? == some ':'

/-- First-match association-list lookup, mirroring Python dict access
(`d[k]`) on our ordered representation. -/
def alookup {α : Type u} (l : List (String × α)) (k : String) : Option α :=
  (l.find? (fun p => p.1 == k)).map (·.2)

/-- The list of keys of an association list. -/
def keysOf {α : Type u} (l : List (String × α)) : List String :=
  l.map Prod.fst

/-- A server record: `Server` objects as used by `_squit` and
`handle_events` (name, uplink, internal flag, set of hosted user IDs). -/
structure SrvRec where
  name : String
  uplink : Option String
  internal : Bool
  users : List String
  deriving Repr, DecidableEq

/-- A user record: the fields of `User` objects that the embedded code
reads (nick, hosting server, joined channels). -/
structure UserRec where
  nick : String
  server : String
  channels : List String
  deriving Repr, DecidableEq

/-- A channel record: the fields of `Channel` objects that the embedded
code reads (the membership set). -/
structure ChanRec where
  users : List String
  deriving Repr, DecidableEq

/-- The per-network state owned by one `IRCS2SProtocol` instance: its own
SID, the uplink SID, and the server/user/channel maps, plus the
case-folded nick index and the P10-style command-token table. -/
structure NetState where
  sid : String
  uplink : String
  servers : List (String × SrvRec)
  users : List (String × UserRec)
  channels : List (String × ChanRec)
  nickIndex : List (String × String)
  commandTokens : List (String × String)
  deriving Repr, DecidableEq

/-! ## Argument parsing (`ircs2s_common.py` lines 58–85) -/

/-- Tail loop of `parse_args`: every token at index ≥ 1 that starts with
`:` swallows the remainder of the line (joined by single spaces, with the
first character — the colon — cut off, exactly like `' '.join(args[idx:])[1:]`). -/
def parseArgsAux : List String → List String
  | [] => []
  | x :: xs =>
    if startsWithColon x then [(String.intercalate " " (x :: xs)).drop 1]
    else x :: parseArgsAux xs

/-- `IRCCommonProtocol.parse_args` on an already-split token list.  The
token at index 0 is never treated as a trailing-argument marker
(`idx != 0` in the source). -/
def parse_args : List String → List String
  | [] => []
  | a :: rest => a :: parseArgsAux rest

/-- Everything after the first `:` in a character list, or `none` when no
colon occurs — the behaviour of Python `s.split(':', 1)[1]`, where the
missing-colon case raises `IndexError`. -/
def afterFirstColon : List Char → Option (List Char)
  | [] => none
  | c :: cs => if c = ':' then some cs else afterFirstColon cs

/-- `IRCCommonProtocol.parse_prefixed_args`: `parse_args` followed by
`args[0] = args[0].split(':', 1)[1]`.  `none` models the `IndexError`
raised when the token list is empty or the first token has no colon. -/
def parse_prefixed_args (args : List String) : Option (List String) :=
  match parse_args args with
  | [] => none
  | a :: rest =>
    match afterFirstColon a.data with
    | none => none
    | some cs => some (String.mk cs :: rest)

/-! ## Sender resolution (`ircs2s_common.py` lines 35–56, 287–347) -/

/-- `IRCCommonProtocol._get_SID`: lowercase the argument; return it if the
lowercased text is a server key, else the key of the first server whose
name matches case-insensitively, else the original text. -/
def getSID (servers : List (String × SrvRec)) (sname : String) : String :=
  let name := strLower sname
  if (alookup servers name).isSome then name
  else
    match servers.find? (fun p => strLower p.2.name == name) with
    | some p => p.1
    | none => sname

/-- Modelled from the spec: `nick_to_uid` consults the case-folded
nick→UID index maintained by the state store (§4.3.4); the index itself
lives outside the four protocol modules. -/
def nickToUid (st : NetState) (nick : String) : Option String :=
  alookup st.nickIndex (strLower nick)

/-- `IRCCommonProtocol._get_UID`: return the argument itself if it is a
known UID, else the UID its nick maps to, else the original text. -/
def getUID (st : NetState) (target : String) : String :=
  if (alookup st.users target).isSome then target
  else ((nickToUid st target).getD target)

/-- Modelled from the spec: `is_internal_server(sid)` is true exactly for
servers present in the map and owned by this daemon (§3 `internal` flag,
§6.3). -/
def isInternalServer (st : NetState) (x : String) : Bool :=
  match alookup st.servers x with
  | some v => v.internal
  | none => false

/-- Modelled from the spec: `is_internal_client(uid)` is true exactly for
known users hosted on an internal server (§3, §6.3). -/
def isInternalClient (st : NetState) (x : String) : Bool :=
  match alookup st.users x with
  | some u => isInternalServer st u.server
  | none => false

/-- Python `str.lstrip(':')`: remove every leading colon. -/
def lstripColons (s : String) : String :=
  String.mk (s.data.dropWhile (fun c => c = ':'))

/-- Sender resolution step of `handle_events` (lines 301–317): try the SID
map, then the nick/UID map, then — when no `:` prefix was present — fall
back to the uplink SID and splice it in at position zero. -/
def resolveSender (st : NetState) : List String → String × List String
  | [] => ("", [])
  | a0 :: restArgs =>
    let sender1 := lstripColons a0
    let sid := getSID st.servers sender1
    let uid := getUID st sender1
    if (alookup st.servers sid).isSome then (sid, a0 :: restArgs)
    else if (alookup st.users uid).isSome then (uid, a0 :: restArgs)
    else if !(startsWithColon a0) then (st.uplink, st.uplink :: a0 :: restArgs)
    else (sender1, a0 :: restArgs)

/-- Ways in which `handle_events` can raise instead of returning:
`unboundLocal` models the `UnboundLocalError` from the
`log.warning(..., command)` call at line 320, which reads the local
variable `command` before its first assignment (line 329);
`indexErr` models `IndexError` from out-of-range argument access. -/
inductive HEErr where
  | unboundLocal
  | indexErr
  deriving Repr, DecidableEq

/-- The dispatch decision `handle_events` arrives at: the handler named by
`command` is invoked with `(sender, command, args)` (the handler table
itself lives in the individual dialect classes). -/
structure HEDispatch where
  sender : String
  command : String
  args : List String
  deriving Repr, DecidableEq

/-- Stages 1–4 of `handle_events` on a pre-split token list: parse,
resolve the sender, reject internal senders (which in the source crashes
with `UnboundLocalError`, see `HEErr.unboundLocal`), uppercase the
command, translate P10 command tokens, and slice off sender+command. -/
def resolveStage (st : NetState) (toks : List String) :
    Except HEErr (String × String × List String) :=
  match parse_args toks with
  | [] => .error .indexErr
  | a0 :: restArgs =>
    let (sender, args) := resolveSender st (a0 :: restArgs)
    if isInternalClient st sender || isInternalServer st sender then
      .error .unboundLocal
    else
      match args with
      | _ :: a1 :: rest =>
        let raw := strUpper a1
        .ok (sender, (alookup st.commandTokens raw).getD raw, rest)
      | _ => .error .indexErr

/-- `IRCS2SProtocol.handle_events` on a pre-split token list, up to the
dispatch decision.  The ENCAP special case (lines 333–338) drops the
target mask and re-dispatches on the subcommand. -/
def handleEventsTok (st : NetState) (toks : List String) :
    Except HEErr HEDispatch :=
  match resolveStage st toks with
  | .error e => .error e
  | .ok (sender, cmd, args) =>
    if cmd = "ENCAP" then
      match args with
      | _ :: sub :: rest => .ok ⟨sender, sub, rest⟩
      | _ => .error .indexErr
    else .ok ⟨sender, cmd, args⟩

/-- `handle_events` on a raw line: `data.split(" ")` then the token-level
dispatcher. -/
def handleEvents (st : NetState) (data : String) : Except HEErr HEDispatch :=
  handleEventsTok st (splitStr ' ' data)

/-! ## Nick collision (`ircs2s_common.py` lines 412–422) -/

/-- `IRCS2SProtocol.check_nick_collision`: look the nick up in the index;
on a hit, publish a `SAVE` hook carrying the losing UID (modelled from the
spec: `call_hooks` fans the payload out to plugins, §4.5).  The function
reads but never writes the state, so the embedding returns it unchanged
together with the list of hooks published. -/
def check_nick_collision (st : NetState) (nick : String) :
    NetState × List (String × String × String) :=
  match nickToUid st nick with
  | some uid => (st, [(st.sid, "SAVE", uid)])
  | none => (st, [])

/-! ## ngIRCd PING handling (`ngircd.py` lines 27–30, 154–165) -/

/-- The per-connection state read by `NgIRCdProtocol.handle_ping`:
own SID (= server name for ngIRCd), the uplink (if already known), the
`has_eob` latch set on the first uplink PING, and the `connected` event. -/
structure NgState where
  sid : String
  uplink : Option String
  hasEob : Bool
  connected : Bool
  deriving Repr, DecidableEq

/-- `IndexError` from `args[-1]` on an argument-less PING. -/
inductive PingErr where
  | indexErr
  deriving Repr, DecidableEq

/-- `NgIRCdProtocol.handle_ping`.  Output: the new state, the lines passed
to `send` as `(text, queued)` pairs (`queue=False` bypasses the send
queue), and the returned payload (`some "ENDBURST"` models
`{'parse_as': 'ENDBURST'}`). -/
def ngHandlePing (st : NgState) (source : String) (args : List String) :
    Except PingErr (NgState × List (String × Bool) × Option String) :=
  if st.uplink = some source then
    match args.getLast? with
    | none => .error .indexErr
    | some last =>
      let pong := (":" ++ st.sid ++ " PONG " ++ st.sid ++ " :" ++ last, false)
      if st.hasEob then .ok (st, [pong], none)
      else .ok ({ st with hasEob := true, connected := true }, [pong],
                some "ENDBURST")
  else .ok (st, [], none)

/-- Run a sequence of inbound PINGs through `ngHandlePing`, collecting the
payload of each call; an exception aborts the run. -/
def ngRun (st : NgState) : List (String × List String) → NgState × List (Option String)
  | [] => (st, [])
  | (src, args) :: rest =>
    match ngHandlePing st src args with
    | .error _ => (st, [])
    | .ok (st1, _, res) =>
      let (st2, out) := ngRun st1 rest
      (st2, res :: out)

/-! ## Unreal outbound MODE wrapping (`unreal.py` lines 22, 194–241) -/

/-- `IRCCommonProtocol._expandPUID` restricted to what `mode` needs: a
UID that is present in the user map and contains `@` (a PUID) is
replaced by that user's nick. -/
def unrealExpandPUID (users : List (String × String)) (uid : String) : String :=
  match alookup users uid with
  | some nick => if uid.data.contains '@' then nick else uid
  | none => uid

/-- UnrealIRCd's prefix-mode characters (`self.prefixmodes` keys). -/
def unrealPrefixChars : List Char := ['q', 'a', 'o', 'h', 'v']

/-- The sign of one parsed mode change (`+X` or `-X`). -/
def modeSign (m : String) : Char :=
  if m.data.head? = some '-' then '-' else '+'

/-- The mode letter of one parsed mode change (its last character). -/
def modeChar (m : String) : Char := m.data.getLastD ' '

/-- Mode-character section of a rendered mode string: each change
contributes its letter, preceded by its sign whenever the sign differs
from the previous change's. -/
def joinModesChars : Option Char → List (String × Option String) → List Char
  | _, [] => []
  | last, (m, _) :: rest =>
    let s := modeSign m
    (if last = some s then [modeChar m] else [s, modeChar m])
      ++ joinModesChars (some s) rest

/-- Modelled from the spec: `utils.join_modes` renders a parsed mode list
(§4.3.3 `(+X|-X, arg|none)` sequences) as the mode characters followed by
the space-separated arguments. -/
def joinModes (modes : List (String × Option String)) : String :=
  let chars := String.mk (joinModesChars none modes)
  let args := modes.filterMap Prod.snd
  if args.isEmpty then chars else chars ++ " " ++ String.intercalate " " args

/-- Greedily extend the current chunk while it stays within both the
per-line mode budget and the byte budget. -/
def takeChunk (bufsize maxModes : Nat) :
    List (String × Option String) → List (String × Option String) →
    List (String × Option String) × List (String × Option String)
  | cur, [] => (cur, [])
  | cur, x :: xs =>
    if cur.length + 1 ≤ maxModes ∧ (joinModes (cur ++ [x])).length ≤ bufsize then
      takeChunk bufsize maxModes (cur ++ [x]) xs
    else (cur, x :: xs)

/-- Fuelled chunking loop for `wrap_modes`. -/
def wrapChunksGo (bufsize maxModes : Nat) :
    Nat → List (String × Option String) → List (List (String × Option String))
  | 0, _ => []
  | _, [] => []
  | f + 1, m :: ms =>
    let (c, r) := takeChunk bufsize maxModes [m] ms
    c :: wrapChunksGo bufsize maxModes f r

/-- Modelled from the spec: `utils.wrap_modes` splits a parsed mode list
into consecutive chunks of at most `maxModes` changes whose rendered
form fits `bufsize` bytes (§4.3.3, §8 mode-wrapping property). -/
def wrapModeChunks (modes : List (String × Option String))
    (bufsize maxModes : Nat) : List (List (String × Option String)) :=
  wrapChunksGo bufsize maxModes modes.length modes

/-- `wrap_modes` proper: the rendered mode string of each chunk. -/
def wrap_modes (modes : List (String × Option String))
    (bufsize maxModes : Nat) : List String :=
  (wrapModeChunks modes bufsize maxModes).map joinModes

/-- The chunks produced by `UnrealProtocol.mode` for a channel target:
PUID expansion on prefix-mode arguments, then the buffer computation of
lines 224–231 (`S2S_BUFSIZE = 427`, minus 7, minus the TS and target
lengths, minus 5 for a server sender or 11 for a client sender), then
`wrap_modes(modes, bufsize, max_modes_per_msg=12)`. -/
def unrealModeChunks (users : List (String × String)) (senderIsServer : Bool)
    (target : String) (ts : Nat) (modes : List (String × Option String)) :
    List (List (String × Option String)) :=
  let modes2 := modes.map (fun p =>
    if unrealPrefixChars.contains (modeChar p.1)
    then (p.1, p.2.map (unrealExpandPUID users)) else p)
  let bufsize := 427 - 7 - (toString ts).length - target.length
                 - (if senderIsServer then 5 else 11)
  wrapModeChunks modes2 bufsize 12

/-- The MODE lines `UnrealProtocol.mode` sends for a channel target, one
per wrapped chunk: `:<source> MODE <target> <modestring> <ts>`
(line 241). -/
def unrealModeLines (users : List (String × String)) (senderIsServer : Bool)
    (src target : String) (ts : Nat)
    (modes : List (String × Option String)) : List String :=
  (unrealModeChunks users senderIsServer target ts modes).map
    (fun c => ":" ++ src ++ " MODE " ++ target ++ " " ++ joinModes c
              ++ " " ++ toString ts)

/-- Twenty ban additions, the C4 scenario input. -/
def c4modes : List (String × Option String) :=
  (List.range 20).map (fun i => ("+b", some ("m" ++ toString i)))

/-! ## Unreal base64 IP codec (`unreal.py` lines 79–100 and 396–412)

`spawn_client` encodes the client IP as base64 of the packed
network-order address (trying IPv4 first, then IPv6), sending a literal
`*` for the dummy address `0.0.0.0`; `handle_uid` reverses this, and
prepends `0` to a decoded IPv6 text that begins with `:`.  The packing
functions themselves (`socket.inet_pton` / `inet_ntop`) and the base64
codec live outside the repository, so they are modelled from the spec
(§4.3.5) and the C library behaviour they wrap. -/

/-- The base64 alphabet. -/
def b64alpha : List Char :=
  "ABCDEFGHIJKLMNOPQRSTUVWXYZabcdefghijklmnopqrstuvwxyz0123456789+/".data

/-- Sextet value → base64 character. -/
def b64char (n : Nat) : Char := b64alpha.getD n 'A'

/-- Base64 character → sextet value (lookup table). -/
def b64table : List (Char × Nat) :=
  (List.range 64).map (fun i => (b64char i, i))

/-- Base64 character → sextet value. -/
def b64val (c : Char) : Option Nat :=
  (b64table.find? (fun p => p.1 == c)).map (·.2)

/-- Modelled from the spec: base64 encoding of a byte list (the
`codecs.encode(_, "base64")` call with the trailing newline stripped). -/
def b64encodeChars : List Nat → List Char
  | [] => []
  | [x] => [b64char (x / 4), b64char (x % 4 * 16), '=', '=']
  | [x, y] => [b64char (x / 4), b64char (x % 4 * 16 + y / 16),
               b64char (y % 16 * 4), '=']
  | x :: y :: z :: rest =>
    b64char (x / 4) :: b64char (x % 4 * 16 + y / 16)
      :: b64char (y % 16 * 4 + z / 64) :: b64char (z % 64)
      :: b64encodeChars rest

/-- Modelled from the spec: base64 decoding of a character list (the
`codecs.decode(_, "base64")` call); like Python it does not reject
nonzero discarded low bits before padding. -/
def b64decodeChars : List Char → Option (List Nat)
  | [] => some []
  | a :: b :: c :: d :: rest =>
    match b64val a, b64val b with
    | some sa, some sb =>
      if c = '=' then
        if d = '=' ∧ rest = [] then some [sa * 4 + sb / 16] else none
      else
        match b64val c with
        | some sc =>
          if d = '=' then
            if rest = [] then some [sa * 4 + sb / 16, sb % 16 * 16 + sc / 4]
            else none
          else
            match b64val d with
            | some sd =>
              (b64decodeChars rest).map
                (fun t => (sa * 4 + sb / 16) :: (sb % 16 * 16 + sc / 4)
                          :: (sc % 4 * 64 + sd) :: t)
            | none => none
        | none => none
    | _, _ => none
  | _ => none

/-- Decimal digit table. -/
def decDigits : List (Char × Nat) :=
  [('0', 0), ('1', 1), ('2', 2), ('3', 3), ('4', 4),
   ('5', 5), ('6', 6), ('7', 7), ('8', 8), ('9', 9)]

/-- Decimal digit value. -/
def decDigitVal (c : Char) : Option Nat :=
  (decDigits.find? (fun p => p.1 == c)).map (·.2)

/-- Hexadecimal digit table (both cases, as `inet_pton` accepts). -/
def hexDigits : List (Char × Nat) :=
  decDigits ++
  [('a', 10), ('b', 11), ('c', 12), ('d', 13), ('e', 14), ('f', 15),
   ('A', 10), ('B', 11), ('C', 12), ('D', 13), ('E', 14), ('F', 15)]

/-- Hexadecimal digit value. -/
def hexDigitVal (c : Char) : Option Nat :=
  (hexDigits.find? (fun p => p.1 == c)).map (·.2)

/-- Modelled from the spec: one dotted-quad part as `inet_pton(AF_INET)`
accepts it — one to three decimal digits, no leading zero, value ≤ 255. -/
def parseOctet (s : String) : Option Nat :=
  match s.data with
  | [c] => decDigitVal c
  | [c1, c2] =>
    if c1 = '0' then none
    else
      match decDigitVal c1, decDigitVal c2 with
      | some a, some b => some (a * 10 + b)
      | _, _ => none
  | [c1, c2, c3] =>
    if c1 = '0' then none
    else
      match decDigitVal c1, decDigitVal c2, decDigitVal c3 with
      | some a, some b, some c =>
        if a * 100 + b * 10 + c ≤ 255 then some (a * 100 + b * 10 + c)
        else none
      | _, _, _ => none
  | _ => none

/-- Modelled from the spec: `socket.inet_pton(AF_INET, s)` — four octets
to four network-order bytes. -/
def pton4 (s : String) : Option (List Nat) :=
  match splitStr '.' s with
  | [a, b, c, d] =>
    match parseOctet a, parseOctet b, parseOctet c, parseOctet d with
    | some x, some y, some z, some w => some [x, y, z, w]
    | _, _, _, _ => none
  | _ => none

/-- One IPv6 group: one to four hexadecimal digits. -/
def parseHexGroup (s : String) : Option Nat :=
  match s.data with
  | [a] => hexDigitVal a
  | [a, b] =>
    match hexDigitVal a, hexDigitVal b with
    | some x, some y => some (x * 16 + y)
    | _, _ => none
  | [a, b, c] =>
    match hexDigitVal a, hexDigitVal b, hexDigitVal c with
    | some x, some y, some z => some (x * 256 + y * 16 + z)
    | _, _, _ => none
  | [a, b, c, d] =>
    match hexDigitVal a, hexDigitVal b, hexDigitVal c, hexDigitVal d with
    | some x, some y, some z, some w =>
      some (x * 4096 + y * 256 + z * 16 + w)
    | _, _, _, _ => none
  | _ => none

/-- The final group of an IPv6 address: either an embedded dotted quad
(two 16-bit words) or one ordinary hexadecimal group. -/
def parseLastGroup (g : String) : Option (List Nat) :=
  if g.data.contains '.' then
    match pton4 g with
    | some [x, y, z, w] => some [x * 256 + y, z * 256 + w]
    | _ => none
  else (parseHexGroup g).map (fun a => [a])

/-- A `:`-separated group list where only the final group may be an
embedded dotted quad (contributing two 16-bit words). -/
def parseGroupsV4Tail : List String → Option (List Nat)
  | [] => some []
  | [g] => parseLastGroup g
  | g :: g2 :: rest =>
    match parseHexGroup g, parseGroupsV4Tail (g2 :: rest) with
    | some v, some vs => some (v :: vs)
    | _, _ => none

/-- A `:`-separated group list with no embedded dotted quad (the part
left of a `::`). -/
def parseGroupsPlain : List String → Option (List Nat)
  | [] => some []
  | g :: rest =>
    match parseHexGroup g, parseGroupsPlain rest with
    | some v, some vs => some (v :: vs)
    | _, _ => none

/-- Split a character list around the first `::`, if any. -/
def findDC : List Char → Option (List Char × List Char)
  | [] => none
  | [_] => none
  | a :: b :: rest =>
    if a = ':' ∧ b = ':' then some ([], rest)
    else (findDC (b :: rest)).map (fun p => (a :: p.1, p.2))

/-- 16-bit words to network-order bytes. -/
def wordsToBytes (ws : List Nat) : List Nat :=
  ws.foldr (fun g acc => g / 256 :: g % 256 :: acc) []

/-- Modelled from the spec: `socket.inet_pton(AF_INET6, s)` — full-form
or `::`-compressed textual IPv6, with an optional embedded dotted quad in
the final position, to sixteen network-order bytes. -/
def pton6 (s : String) : Option (List Nat) :=
  match findDC s.data with
  | none =>
    match parseGroupsV4Tail (splitStr ':' s) with
    | some vs => if vs.length = 8 then some (wordsToBytes vs) else none
    | none => none
  | some (l, r) =>
    if (findDC r).isSome then none
    else
      match parseGroupsPlain (if l = [] then [] else (splitOnChar ':' l).map String.mk),
            parseGroupsV4Tail (if r = [] then [] else (splitOnChar ':' r).map String.mk) with
      | some lv, some rv =>
        if lv.length + rv.length ≤ 7 then
          some (wordsToBytes
            (lv ++ List.replicate (8 - lv.length - rv.length) 0 ++ rv))
        else none
      | _, _ => none

/-- Modelled from the spec: `socket.inet_ntop(AF_INET, b)`. -/
def ntop4 : List Nat → String
  | [a, b, c, d] =>
    toString a ++ "." ++ toString b ++ "." ++ toString c ++ "." ++ toString d
  | _ => ""

/-- Network-order bytes to 16-bit words. -/
def bytesToWords : List Nat → List Nat
  | a :: b :: rest => (a * 256 + b) :: bytesToWords rest
  | _ => []

/-- Length of the zero-word run at the head of a word list. -/
def zeroRunLen (ws : List Nat) : Nat :=
  (ws.takeWhile (fun w => w == 0)).length

/-- The first longest run of zero words, when its length is at least two
(the run `inet_ntop(AF_INET6)` compresses to `::`). -/
def bestRun (ws : List Nat) : Option (Nat × Nat) :=
  let cands := (List.range ws.length).map (fun i => (i, zeroRunLen (ws.drop i)))
  let best := cands.foldl (fun acc p => if p.2 > acc.2 then p else acc) (0, 0)
  if best.2 ≥ 2 then some best else none

/-- Lowercase hexadecimal rendering of one word. -/
def hexStr (n : Nat) : String := String.mk (Nat.toDigits 16 n)

/-- Modelled from the spec: `socket.inet_ntop(AF_INET6, b)` — compress
the first longest zero run of length ≥ 2, and use the C library's
embedded-IPv4 forms for `::a.b.c.d` and `::ffff:a.b.c.d`. -/
def ntop6 (bs : List Nat) : String :=
  let ws := bytesToWords bs
  match bestRun ws with
  | none => String.intercalate ":" (ws.map hexStr)
  | some (b, l) =>
    if b = 0 ∧ (l = 6 ∨ (l = 7 ∧ ws.getD 7 0 ≠ 1) ∨ (l = 5 ∧ ws.getD 5 0 = 65535))
    then
      (if l = 5 then "::ffff:" else "::")
        ++ ntop4 [ws.getD 6 0 / 256, ws.getD 6 0 % 256,
                  ws.getD 7 0 / 256, ws.getD 7 0 % 256]
    else
      String.intercalate ":" ((ws.take b).map hexStr) ++ "::"
        ++ String.intercalate ":" ((ws.drop (b + l)).map hexStr)

/-- The leading-colon guard of `handle_uid` lines 411–412: a decoded IPv6
text beginning with `:` is prefixed with `0`. -/
def zfix (t : String) : String :=
  if startsWithColon t then "0" ++ t else t

/-- The packing order of `spawn_client` lines 82–88: try IPv4 first, then
IPv6. -/
def ipPton (s : String) : Option (List Nat) :=
  match pton4 s with
  | some b => some b
  | none => pton6 s

/-- The IP encoding of `spawn_client` lines 79–93: `0.0.0.0` becomes the
literal `*`; anything else is packed and base64-encoded; an address that
is neither IPv4 nor IPv6 raises `ValueError` (`none`). -/
def encodeIp (s : String) : Option String :=
  if s = "0.0.0.0" then some "*"
  else (ipPton s).map (fun bs => String.mk (b64encodeChars bs))

/-- The IP decoding of `handle_uid` lines 396–412: `*` becomes `0.0.0.0`;
anything else is base64-decoded and unpacked (IPv4 first, then IPv6 with
the leading-colon guard); undecodable input raises (`none`). -/
def decodeIp (t : String) : Option String :=
  if t = "*" then some "0.0.0.0"
  else
    match b64decodeChars t.data with
    | none => none
    | some bs =>
      if bs.length = 4 then some (ntop4 bs)
      else if bs.length = 16 then some (zfix (ntop6 bs))
      else none

/-! ## The SQUIT cascade (`ircs2s_common.py` lines 87–142) -/

/-- Exceptions `_squit` can raise: `protocol` is the `ProtocolError` of
line 96; `keyErr` models a `KeyError` from `self.servers[split_server]`
(lines 120, 133) or `self.users[user]` (line 122); `noneSub` models the
`TypeError` from `args['users']` (line 118) when a recursive call
returned `None`. -/
inductive SqErr where
  | protocol
  | keyErr
  | noneSub
  deriving Repr, DecidableEq

/-- The payload dictionary returned by `_squit` (lines 140–142). -/
structure SqPayload where
  target : String
  users : List String
  name : String
  uplink : Option String
  nicks : List (String × List String)
  serverdata : SrvRec
  channeldata : List (String × ChanRec)
  deriving Repr, DecidableEq

/-- `defaultdict(list)` append: extend the list at `key`, creating the
entry (at the end, in first-touch order) when absent. -/
def nickAppend (m : List (String × List String)) (key v : String) :
    List (String × List String) :=
  if (alookup m key).isSome then
    m.map (fun p => if p.1 = key then (p.1, p.2 ++ [v]) else p)
  else m ++ [(key, [v])]

/-- Modelled from the spec: `_remove_client(uid)` removes the client from
every channel membership, from the host server's user set, from the nick
index, and from the user map (§4.4). -/
def removeClient (st : NetState) (uid : String) : NetState :=
  { st with
    users := st.users.filter (fun p => p.1 ≠ uid),
    channels := st.channels.map (fun p => (p.1, ⟨p.2.users.filter (· ≠ uid)⟩)),
    servers :=
      match (alookup st.users uid).map (·.server) with
      | some hostSid =>
        st.servers.map (fun p =>
          if p.1 = hostSid then (p.1, { p.2 with users := p.2.users.filter (· ≠ uid) })
          else p)
      | none => st.servers,
    nickIndex := st.nickIndex.filter (fun p => p.2 ≠ uid) }

/-- The per-user removal loop of `_squit` (lines 120–131): append the
UID to the affected list, read its nick, extend the per-channel
affected-nick lists for every pre-split channel containing the user,
then `_remove_client` it.  `keyErr` models the `KeyError` when the UID is
missing from the user map. -/
def removeUsers (oldChannels : List (String × ChanRec)) :
    NetState → List String → List String → List (String × List String) →
    Except SqErr (NetState × List String × List (String × List String))
  | st, [], accU, accN => .ok (st, accU, accN)
  | st, u :: us, accU, accN =>
    match alookup st.users u with
    | none => .error .keyErr
    | some urec =>
      removeUsers oldChannels (removeClient st u) us (accU ++ [u])
        (oldChannels.foldl
          (fun acc p => if p.2.users.contains u then nickAppend acc p.1 urec.nick else acc)
          accN)

/-- The recursive leaf-splitting loop of `_squit` (lines 110–118),
parameterised by the recursive call `f` (instantiated with `squitGo` at
one less fuel): every snapshot entry whose uplink is the split server is
recursively SQUIT, and its payload's user list accumulated. -/
def childLoop
    (f : NetState → String → String → Option (Except SqErr (NetState × Option SqPayload)))
    (split : String) :
    NetState → List (String × SrvRec) → Option (Except SqErr (NetState × List String))
  | st, [] => some (.ok (st, []))
  | st, (c, v) :: rest =>
    if v.uplink = some split then
      match f st c ("PyLink: Automatically splitting leaf servers of " ++ c) with
      | none => none
      | some (.error e) => some (.error e)
      | some (.ok (_, none)) => some (.error .noneSub)
      | some (.ok (st1, some p)) =>
        match childLoop f split st1 rest with
        | none => none
        | some (.error e) => some (.error e)
        | some (.ok (st2, acc)) => some (.ok (st2, p.users ++ acc))
    else childLoop f split st rest

/-- `IRCCommonProtocol._squit`, with a recursion-depth fuel (`none` means
the fuel ran out; the Python code has no such bound, so every theorem
below is conditioned on the call completing).  `.ok (st, none)` is the
unknown-server warning path of lines 102–104, which returns `None`;
`.ok (st1, some p)` carries the post-split state and the payload. -/
def squitGo :
    Nat → NetState → String → String →
    Option (Except SqErr (NetState × Option SqPayload))
  | 0, _, _, _ => none
  | fuel + 1, st, target, _reason =>
    if getSID st.servers target = st.sid ∨ getSID st.servers target = st.uplink then
      some (.error .protocol)
    else
      match alookup st.servers (getSID st.servers target) with
      | none => some (.ok (st, none))
      | some _ =>
        match childLoop (squitGo fuel) (getSID st.servers target) st st.servers with
        | none => none
        | some (.error e) => some (.error e)
        | some (.ok (st1, childUsers)) =>
          match alookup st1.servers (getSID st.servers target) with
          | none => some (.error .keyErr)
          | some srv =>
            match removeUsers st.channels st1 srv.users [] [] with
            | .error e => some (.error e)
            | .ok (st2, directUsers, nicks) =>
              match alookup st2.servers (getSID st.servers target) with
              | none => some (.error .keyErr)
              | some serverdata =>
                some (.ok
                  ({ st2 with servers :=
                      st2.servers.filter (fun p => p.1 ≠ getSID st.servers target) },
                   some { target := getSID st.servers target,
                          users := childUsers ++ directUsers,
                          name := serverdata.name,
                          uplink := serverdata.uplink,
                          nicks := nicks,
                          serverdata := serverdata,
                          channeldata := st.channels }))

/-- A UID is completely gone: not a key of the user map and in no
channel's membership set. -/
def Absent (st : NetState) (u : String) : Prop :=
  u ∉ keysOf st.users ∧ ∀ p ∈ st.channels, u ∉ (Prod.snd p).users

/-- The uplink chain of `k`, followed through the entries of the server
map `m`, reaches `root`. -/
inductive ReachesUp (m : List (String × SrvRec)) (root : String) : String → Prop
  | direct (k : String) (v : SrvRec) :
      (k, v) ∈ m → v.uplink = some root → ReachesUp m root k
  | step (k : String) (v : SrvRec) (j : String) :
      (k, v) ∈ m → v.uplink = some j → ReachesUp m root j → ReachesUp m root k

/-- Server entries of `m` refine those of `R`: same key, name and uplink,
possibly smaller user set.  Holds of every state `_squit` passes through,
relative to the initial map. -/
def SubSrv (m R : List (String × SrvRec)) : Prop :=
  ∀ k v, (k, v) ∈ m →
    ∃ v0, (k, v0) ∈ R ∧ v.name = v0.name ∧ v.uplink = v0.uplink
      ∧ ∀ u ∈ v.users, u ∈ v0.users

/-- Resolution stability for a server map: no key case-folds onto a
different key, and no server's name case-folds onto another server's
key.  Under it, `_get_SID` maps every present key of every submap to
itself, so recursive SQUITs hit the intended servers. -/
def ResolStable (R : List (String × SrvRec)) : Prop :=
  (∀ k ∈ keysOf R, strLower k = k ∨ strLower k ∉ keysOf R)
  ∧ (∀ k ∈ keysOf R, ∀ q ∈ R, strLower (Prod.snd q).name = strLower k → Prod.fst q = k)

/-- The state-evolution facts every successful `_squit` step preserves:
identity fields, shrink-only user map, shrink-only channel memberships,
refined server entries with a sub-list of keys, and preservation of
absence. -/
def PresOk (st st1 : NetState) : Prop :=
  st1.sid = st.sid ∧ st1.uplink = st.uplink
  ∧ (∀ u r, (u, r) ∈ st1.users → (u, r) ∈ st.users)
  ∧ (∀ c ch1, (c, ch1) ∈ st1.channels →
      ∃ ch, (c, ch) ∈ st.channels ∧ ∀ a ∈ ch1.users, a ∈ ch.users)
  ∧ SubSrv st1.servers st.servers
  ∧ (keysOf st1.servers).Sublist (keysOf st.servers)
  ∧ (∀ u, Absent st u → Absent st1 u)

/-- Every user of every server entry either survives in that entry or is
completely gone: the invariant carried across a `_squit` state
transition. -/
def StayProp (st st2 : NetState) : Prop :=
  ∀ k v, (k, v) ∈ st.servers → ∀ u ∈ v.users,
    (∃ v2, (k, v2) ∈ st2.servers ∧ u ∈ v2.users) ∨ Absent st2 u

/-- The induction bundle for the recursive call inside `childLoop`: what
a successful payload-bearing `_squit` at smaller depth guarantees,
relative to the fixed initial server map `R`. -/
def SquitIH (R : List (String × SrvRec))
    (f : NetState → String → String → Option (Except SqErr (NetState × Option SqPayload))) :
    Prop :=
  ∀ st t m st1 p, SubSrv st.servers R → (keysOf st.servers).Nodup →
    f st t m = some (.ok (st1, some p)) →
    PresOk st st1
    ∧ (t ∈ keysOf st.servers → t ∉ keysOf st1.servers)
    ∧ StayProp st st1
    ∧ (∀ u, u ∈ p.users ↔ u ∈ keysOf st.users ∧ u ∉ keysOf st1.users)
    ∧ (∀ k v j, (k, v) ∈ st.servers → v.uplink = some j →
        j ∈ keysOf st.servers → j ∉ keysOf st1.servers → k ∉ keysOf st1.servers)

/-! ## Concrete SQUIT scenarios -/

/-- The leaf server `bbb` of the three-server chain below: uplinked to
`aaa` and hosting the single user `u2`. -/
def bbbRec : SrvRec :=
  { name := "b.example", uplink := some "aaa", internal := false, users := ["u2"] }

/-- A three-server chain `9py -> aaa -> bbb` with one user on each leaf
server, both sharing the channel `#c`. -/
def stC1 : NetState :=
  { sid := "9py", uplink := "1up",
    servers :=
      [("9py", { name := "root.example", uplink := none, internal := true, users := [] }),
       ("aaa", { name := "a.example", uplink := some "9py", internal := false, users := ["u1"] }),
       ("bbb", bbbRec)],
    users :=
      [("u1", { nick := "N1", server := "aaa", channels := ["#c"] }),
       ("u2", { nick := "N2", server := "bbb", channels := ["#c"] })],
    channels := [("#c", { users := ["u1", "u2"] })],
    nickIndex := [("n1", "u1"), ("n2", "u2")],
    commandTokens := [] }

/-- The state and payload produced by SQUITting `aaa` out of `stC1`
(the run succeeds with ample fuel; the fallback branch is never taken). -/
def squitC1res : NetState × SqPayload :=
  match squitGo 5 stC1 "aaa" "SQUIT test" with
  | some (.ok (s, some p)) => (s, p)
  | _ =>
    (stC1,
     { target := "", users := [], name := "", uplink := none, nicks := [],
       serverdata := { name := "", uplink := none, internal := false, users := [] },
       channeldata := [] })

/-- A two-server state whose own SID `9PY` is also a key of the server
map, as on a live link; the dialects that send the uplink SID as SQUIT
target are covered by the `uplink` field `001`. -/
def stC2 : NetState :=
  { sid := "9PY", uplink := "001",
    servers :=
      [("001", { name := "up.example", uplink := none, internal := false, users := [] }),
       ("9PY", { name := "me.example", uplink := none, internal := true, users := [] })],
    users := [], channels := [], nickIndex := [], commandTokens := [] }

-- ===================================================================
-- Theorems
-- ===================================================================

theorem parseArgsAux_no_colon (xs : List String)
    (h : ∀ x ∈ xs, ¬ startsWithColon x) : parseArgsAux xs = xs := by
  induction xs with
  | nil => rfl
  | cons x t ih =>
    have hx : ¬ startsWithColon x := h x (List.mem_cons_self x t)
    simp only [parseArgsAux, if_neg hx]
    exact congrArg (x :: ·) (ih fun y hy => h y (List.mem_cons_of_mem x hy))

theorem parseArgsAux_colon (pre : List String) (tok : String) (suf : List String)
    (hpre : ∀ x ∈ pre, ¬ startsWithColon x) (htok : startsWithColon tok) :
    parseArgsAux (pre ++ tok :: suf)
      = pre ++ [(String.intercalate " " (tok :: suf)).drop 1] := by
  induction pre with
  | nil => simp [parseArgsAux, htok]
  | cons x t ih =>
    have hx : ¬ startsWithColon x := hpre x (List.mem_cons_self x t)
    simp only [List.cons_append, parseArgsAux, if_neg hx]
    exact congrArg (x :: ·) (ih fun y hy => hpre y (List.mem_cons_of_mem x hy))

/-- Claim C5: `parse_args` returns the tokens preceding the first
non-initial token that begins with `:`, followed by one final argument
equal to that token and all remaining tokens joined by single spaces with
the leading `:` stripped (later tokens are not scanned further); and when
no non-first token begins with `:`, the token list is returned
unchanged. -/
theorem parse_args_spec :
    (∀ args : List String, (∀ x ∈ args.tail, ¬ startsWithColon x) →
      parse_args args = args)
    ∧ (∀ (pre : List String) (tok : String) (suf : List String),
        pre ≠ [] → (∀ x ∈ pre.tail, ¬ startsWithColon x) → startsWithColon tok →
        parse_args (pre ++ tok :: suf)
          = pre ++ [(String.intercalate " " (tok :: suf)).drop 1]) := by
  constructor
  · intro args h
    match args with
    | [] => rfl
    | a :: rest =>
      simp only [parse_args]
      exact congrArg (a :: ·) (parseArgsAux_no_colon rest h)
  · intro pre tok suf hne hpre htok
    match pre with
    | [] => exact absurd rfl hne
    | a :: pt =>
      simp only [List.cons_append, parse_args]
      exact congrArg (a :: ·) (parseArgsAux_colon pt tok suf hpre htok)

/-- Witness for C5 at a concrete line: `PRIVMSG #chan :hello world` and a
line with no trailing argument. -/
theorem parse_args_spec_witness :
    parse_args ["PRIVMSG", "#chan", ":hello", "world"]
      = ["PRIVMSG", "#chan", "hello world"]
    ∧ parse_args ["PING", "abc"] = ["PING", "abc"] := by
  constructor
  · have h := parse_args_spec.2 ["PRIVMSG", "#chan"] ":hello" ["world"]
      (by decide) (by decide) (by decide)
    simpa using h
  · exact parse_args_spec.1 ["PING", "abc"] (by decide)

theorem afterFirstColon_none (l : List Char) (h : ':' ∉ l) :
    afterFirstColon l = none := by
  induction l with
  | nil => rfl
  | cons c cs ih =>
    have hc : ¬ c = ':' := fun he => h (he ▸ List.mem_cons_self c cs)
    simp only [afterFirstColon, if_neg hc]
    exact ih fun hm => h (List.mem_cons_of_mem c hm)

theorem afterFirstColon_app (pre : List Char) (post : List Char)
    (h : ':' ∉ pre) : afterFirstColon (pre ++ ':' :: post) = some post := by
  induction pre with
  | nil => simp [afterFirstColon]
  | cons c cs ih =>
    have hc : ¬ c = ':' := fun he => h (he ▸ List.mem_cons_self c cs)
    simp only [List.cons_append, afterFirstColon, if_neg hc]
    exact ih fun hm => h (List.mem_cons_of_mem c hm)

/-- Claim C10: when the first parsed token contains no `:`,
`parse_prefixed_args` raises `IndexError` (modelled by `none`); when it
does, everything up to and including the first `:` is removed from that
token — not only a leading colon. -/
theorem parse_prefixed_args_spec :
    (∀ (args : List String) (a : String) (rest : List String),
      parse_args args = a :: rest → ':' ∉ a.data →
      parse_prefixed_args args = none)
    ∧ (∀ (args : List String) (pre post : String) (rest : List String),
        parse_args args = (pre ++ ":" ++ post) :: rest → ':' ∉ pre.data →
        parse_prefixed_args args = some (post :: rest)) := by
  constructor
  · intro args a rest hp hnc
    simp only [parse_prefixed_args, hp, afterFirstColon_none a.data hnc]
  · intro args pre post rest hp hnc
    have hdata : (pre ++ ":" ++ post).data = pre.data ++ ':' :: post.data := by
      simp [String.data_append]
    simp only [parse_prefixed_args, hp, hdata, afterFirstColon_app pre.data post.data hnc]

/-- Witness for C10: the head token `ab:cd` loses `ab:`, and a colon-free
head token makes the helper raise. -/
theorem parse_prefixed_args_spec_witness :
    parse_prefixed_args ["ab:cd", "x"] = some ["cd", "x"]
    ∧ parse_prefixed_args ["abcd"] = none := by
  constructor
  · have h := parse_prefixed_args_spec.2 ["ab:cd", "x"] "ab" "cd" ["x"]
      (by decide) (by decide)
    simpa using h
  · exact parse_prefixed_args_spec.1 ["abcd"] "abcd" [] (by decide) (by decide)

theorem resolveStage_internal (st : NetState) (toks : List String)
    (a0 : String) (rest : List String) (hts : parse_args toks = a0 :: rest)
    (hint : isInternalClient st (resolveSender st (a0 :: rest)).1 = true ∨
            isInternalServer st (resolveSender st (a0 :: rest)).1 = true) :
    resolveStage st toks = .error .unboundLocal := by
  rcases hsa : resolveSender st (a0 :: rest) with ⟨s, args⟩
  rw [hsa] at hint
  have hcond : (isInternalClient st s || isInternalServer st s) = true := by
    rcases hint with h | h <;> simp [h]
  simp only [resolveStage, hts, hsa, hcond, if_true]

/-- Claim C3 (the code path the claim describes): whenever the resolved
sender of an inbound line is an internal client or internal server,
`handle_events` does not log-and-return; it crashes, because the
`log.warning` call on line 320 reads the local variable `command` before
its assignment on line 329.  The embedding returns
`HEErr.unboundLocal`, the image of that `UnboundLocalError`. -/
theorem handle_events_internal_sender_raises (st : NetState) (toks : List String)
    (a0 : String) (rest : List String) (hts : parse_args toks = a0 :: rest)
    (hint : isInternalClient st (resolveSender st (a0 :: rest)).1 = true ∨
            isInternalServer st (resolveSender st (a0 :: rest)).1 = true) :
    handleEventsTok st toks = .error .unboundLocal := by
  simp only [handleEventsTok, resolveStage_internal st toks a0 rest hts hint]

/-- The state in which the C3 failing input is processed: `2SV` is this
daemon's own (internal) server. -/
def stC3 : NetState :=
  { sid := "2SV", uplink := "001",
    servers := [("2SV", ⟨"pylink.local", none, true, []⟩),
                ("001", ⟨"uplink.local", none, false, []⟩)],
    users := [], channels := [], nickIndex := [], commandTokens := [] }

/-- Witness for C3: the concrete failing input `:2SV PING x` — a line
whose sender resolves to the internal server `2SV` — makes
`handle_events` raise instead of logging and returning `None`. -/
theorem handle_events_internal_sender_raises_witness :
    handleEvents stC3 ":2SV PING x" = .error .unboundLocal := by
  have hsplit : splitStr ' ' ":2SV PING x" = [":2SV", "PING", "x"] := by decide
  have h := handle_events_internal_sender_raises stC3 [":2SV", "PING", "x"]
    ":2SV" ["PING", "x"] (by decide) (Or.inr (by decide))
  rw [handleEvents, hsplit]
  exact h

/-- Claim C6: when the canonical command is `ENCAP`, `handle_events` drops
the first two arguments (target mask and subcommand) and re-dispatches on
the subcommand with the remaining arguments. -/
theorem handle_events_encap (st : NetState) (toks : List String)
    (s a1 a2 : String) (rest : List String)
    (h : resolveStage st toks = .ok (s, "ENCAP", a1 :: a2 :: rest)) :
    handleEventsTok st toks = .ok ⟨s, a2, rest⟩ := by
  simp [handleEventsTok, h]

/-- The state in which the C6 scenario is processed: `00A` is a known,
non-internal server. -/
def stC6 : NetState :=
  { sid := "9PY", uplink := "00A",
    servers := [("00A", ⟨"uplink.example", none, false, []⟩)],
    users := [], channels := [], nickIndex := [], commandTokens := [] }

/-- Witness for C6, the concrete scenario from the specification:
`:00A ENCAP * SU 42XAAAAAC :GL` dispatches canonical command `SU` with
arguments `['42XAAAAAC', 'GL']`. -/
theorem handle_events_encap_witness :
    handleEvents stC6 ":00A ENCAP * SU 42XAAAAAC :GL"
      = .ok ⟨"00A", "SU", ["42XAAAAAC", "GL"]⟩ := by
  have hsplit : splitStr ' ' ":00A ENCAP * SU 42XAAAAAC :GL"
      = [":00A", "ENCAP", "*", "SU", "42XAAAAAC", ":GL"] := by decide
  have hres : resolveStage stC6 [":00A", "ENCAP", "*", "SU", "42XAAAAAC", ":GL"]
      = .ok ("00A", "ENCAP", ["*", "SU", "42XAAAAAC", "GL"]) := by rfl
  rw [handleEvents, hsplit]
  exact handle_events_encap stC6 _ "00A" "*" "SU" ["42XAAAAAC", "GL"] hres

/-- Claim C8: `check_nick_collision` publishes a
`(self.sid, 'SAVE', {'target': uid})` hook exactly when the nick index
maps the nick to an existing UID, and never mutates any state (the state
component of the result is always the input state). -/
theorem check_nick_collision_spec :
    (∀ (st : NetState) (nick uid : String), nickToUid st nick = some uid →
      check_nick_collision st nick = (st, [(st.sid, "SAVE", uid)]))
    ∧ (∀ (st : NetState) (nick : String), nickToUid st nick = none →
      check_nick_collision st nick = (st, [])) := by
  constructor
  · intro st nick uid h
    simp [check_nick_collision, h]
  · intro st nick h
    simp [check_nick_collision, h]

/-- A state for the C8 witness: `UID1` already owns the nick `Alice`. -/
def stC8 : NetState :=
  { sid := "1PY", uplink := "42X",
    servers := [], users := [("UID1", ⟨"Alice", "42X", []⟩)],
    channels := [], nickIndex := [("alice", "UID1")], commandTokens := [] }

/-- Witness for C8: a collision on `Alice` publishes the SAVE hook for
`UID1` and leaves the state untouched; a free nick publishes nothing. -/
theorem check_nick_collision_spec_witness :
    check_nick_collision stC8 "Alice" = (stC8, [("1PY", "SAVE", "UID1")])
    ∧ check_nick_collision stC8 "bob" = (stC8, []) := by
  constructor
  · exact check_nick_collision_spec.1 stC8 "Alice" "UID1" (by decide)
  · exact check_nick_collision_spec.2 stC8 "bob" (by decide)

theorem ngHandlePing_after_eob (st : NgState) (src : String) (args : List String)
    (st1 : NgState) (sends : List (String × Bool)) (res : Option String)
    (hEob : st.hasEob = true)
    (hm : ngHandlePing st src args = .ok (st1, sends, res)) :
    st1.hasEob = true ∧ res = none := by
  unfold ngHandlePing at hm
  by_cases hup : st.uplink = some src
  · rw [if_pos hup] at hm
    cases hl : args.getLast? with
    | none => rw [hl] at hm; exact absurd hm (by simp)
    | some last =>
      rw [hl, hEob] at hm
      simp only [if_true] at hm
      cases hm
      exact ⟨hEob, rfl⟩
  · rw [if_neg hup] at hm
    cases hm
    exact ⟨hEob, rfl⟩

/-- Claim C9: on ngIRCd, (1) the first PING from the uplink sets the
`has_eob` latch and the `connected` signal, answers with a queue-bypassing
PONG, and returns the `ENDBURST` payload; (2) later uplink PINGs still
answer with the queue-bypassing PONG but return no payload; (3) PINGs
from any other source produce no PONG, no payload and no state change;
(4) once `has_eob` is set, no run of further PINGs ever yields another
`ENDBURST` payload. -/
theorem ngircd_ping_endburst :
    (∀ (st : NgState) (src last : String) (args : List String),
      st.uplink = some src → args.getLast? = some last → st.hasEob = false →
      ngHandlePing st src args
        = .ok ({ st with hasEob := true, connected := true },
               [(":" ++ st.sid ++ " PONG " ++ st.sid ++ " :" ++ last, false)],
               some "ENDBURST"))
    ∧ (∀ (st : NgState) (src last : String) (args : List String),
      st.uplink = some src → args.getLast? = some last → st.hasEob = true →
      ngHandlePing st src args
        = .ok (st,
               [(":" ++ st.sid ++ " PONG " ++ st.sid ++ " :" ++ last, false)],
               none))
    ∧ (∀ (st : NgState) (src : String) (args : List String),
      st.uplink ≠ some src → ngHandlePing st src args = .ok (st, [], none))
    ∧ (∀ (st : NgState) (evs : List (String × List String)),
      st.hasEob = true → ((ngRun st evs).2.count (some "ENDBURST")) = 0) := by
  refine ⟨?_, ?_, ?_, ?_⟩
  · intro st src last args hup hl hEob
    unfold ngHandlePing
    rw [if_pos hup, hl, hEob]
    simp
  · intro st src last args hup hl hEob
    unfold ngHandlePing
    rw [if_pos hup, hl, hEob]
    simp
  · intro st src args hup
    unfold ngHandlePing
    rw [if_neg hup]
  · intro st evs
    induction evs generalizing st with
    | nil => intro h; simp [ngRun]
    | cons ev rest ih =>
      intro hEob
      rcases ev with ⟨src, args⟩
      simp only [ngRun]
      cases hm : ngHandlePing st src args with
      | error e => simp
      | ok out =>
        rcases out with ⟨st1, sends, res⟩
        obtain ⟨h1, h2⟩ := ngHandlePing_after_eob st src args st1 sends res hEob hm
        rcases hr : ngRun st1 rest with ⟨st2, outs⟩
        have := ih st1 h1
        rw [hr] at this
        simp only [h2, List.count_cons]
        simp only [hr] at this ⊢
        simp [this]

/-- Witness for C9: a first uplink PING, a post-burst run, and a
foreign-source PING, all at concrete states. -/
theorem ngircd_ping_endburst_witness :
    ngHandlePing ⟨"me.x", some "up.x", false, false⟩ "up.x" ["t"]
      = .ok (⟨"me.x", some "up.x", true, true⟩,
             [(":me.x PONG me.x :t", false)], some "ENDBURST")
    ∧ ((ngRun ⟨"me.x", some "up.x", true, true⟩
         [("up.x", ["a"]), ("zz", [])]).2.count (some "ENDBURST")) = 0
    ∧ ngHandlePing ⟨"me.x", some "up.x", false, false⟩ "other" []
      = .ok (⟨"me.x", some "up.x", false, false⟩, [], none) := by
  refine ⟨?_, ?_, ?_⟩
  · have h := ngircd_ping_endburst.1 ⟨"me.x", some "up.x", false, false⟩
      "up.x" "t" ["t"] rfl rfl rfl
    simpa using h
  · exact ngircd_ping_endburst.2.2.2 ⟨"me.x", some "up.x", true, true⟩
      [("up.x", ["a"]), ("zz", [])] rfl
  · exact ngircd_ping_endburst.2.2.1 ⟨"me.x", some "up.x", false, false⟩
      "other" [] (by decide)

set_option maxRecDepth 8000 in
/-- Claim C4: on UnrealIRCd, a channel-target `mode()` call with 20 ban
additions (per-line budget 12 mode changes, `S2S_BUFSIZE = 427`) emits
exactly two MODE lines, the first carrying 12 `+b` changes and the second
8, and every emitted line carries the target channel and the TS. -/
theorem unreal_mode_wrap_20_bans :
    (unrealModeChunks [] false "#test" 1444361345 c4modes).map List.length
      = [12, 8]
    ∧ (∀ c ∈ unrealModeChunks [] false "#test" 1444361345 c4modes,
        ∀ m ∈ c, m.1 = "+b")
    ∧ unrealModeLines [] false "001AAAAAA" "#test" 1444361345 c4modes
      = (unrealModeChunks [] false "#test" 1444361345 c4modes).map
          (fun c => ":001AAAAAA MODE #test " ++ joinModes c ++ " 1444361345")
    ∧ (∀ l ∈ unrealModeLines [] false "001AAAAAA" "#test" 1444361345 c4modes,
        List.IsInfix "#test".data l.data
        ∧ List.IsInfix "1444361345".data l.data) := by
  refine ⟨by decide, by decide, by rfl, by decide⟩

theorem b64val_b64char : ∀ n < 64, b64val (b64char n) = some n := by decide

theorem b64char_ne_pad : ∀ n < 64, b64char n ≠ '=' := by decide

theorem b64_roundtrip_fuel (fuel : Nat) :
    ∀ bs : List Nat, bs.length ≤ fuel → (∀ x ∈ bs, x < 256) →
    b64decodeChars (b64encodeChars bs) = some bs := by
  induction fuel with
  | zero =>
    intro bs hlen _
    have : bs = [] := List.length_eq_zero.mp (Nat.le_zero.mp hlen)
    subst this; rfl
  | succ f ih =>
    intro bs hlen hb
    match bs with
    | [] => rfl
    | [x] =>
      have hx : x < 256 := hb x (by simp)
      have e1 := b64val_b64char (x / 4) (by omega)
      have e2 := b64val_b64char (x % 4 * 16) (by omega)
      simp only [b64encodeChars, b64decodeChars, e1, e2, if_pos rfl]
      simp only [and_self, if_pos, Option.some.injEq, List.cons.injEq, and_true]
      omega
    | [x, y] =>
      have hx : x < 256 := hb x (by simp)
      have hy : y < 256 := hb y (by simp)
      have e1 := b64val_b64char (x / 4) (by omega)
      have e2 := b64val_b64char (x % 4 * 16 + y / 16) (by omega)
      have e3 := b64val_b64char (y % 16 * 4) (by omega)
      have hne := b64char_ne_pad (y % 16 * 4) (by omega)
      simp only [b64encodeChars, b64decodeChars, e1, e2, e3, if_neg hne]
      simp
      omega
    | x :: y :: z :: rest =>
      have hx : x < 256 := hb x (by simp)
      have hy : y < 256 := hb y (by simp)
      have hz : z < 256 := hb z (by simp)
      have e1 := b64val_b64char (x / 4) (by omega)
      have e2 := b64val_b64char (x % 4 * 16 + y / 16) (by omega)
      have e3 := b64val_b64char (y % 16 * 4 + z / 64) (by omega)
      have e4 := b64val_b64char (z % 64) (by omega)
      have hne3 := b64char_ne_pad (y % 16 * 4 + z / 64) (by omega)
      have hne4 := b64char_ne_pad (z % 64) (by omega)
      have hrest : b64decodeChars (b64encodeChars rest) = some rest := by
        refine ih rest (by simp at hlen; omega) (fun a ha => hb a ?_)
        simp [ha]
      simp only [b64encodeChars, b64decodeChars, e1, e2, e3, e4,
        if_neg hne3, if_neg hne4, hrest, Option.map_some', Option.some.injEq,
        List.cons.injEq, and_true]
      refine ⟨by omega, by omega, by omega⟩

theorem b64encode_length (bs : List Nat) :
    (b64encodeChars bs).length = 4 * ((bs.length + 2) / 3) := by
  induction bs using b64encodeChars.induct with
  | case1 => rfl
  | case2 x => simp [b64encodeChars]
  | case3 x y => simp [b64encodeChars]
  | case4 x y z rest ih =>
    simp only [b64encodeChars, List.length_cons, ih, List.length_cons]
    omega

theorem decDigitVal_le (c : Char) (v : Nat) (h : decDigitVal c = some v) :
    v ≤ 9 := by
  unfold decDigitVal at h
  rcases Option.map_eq_some'.mp h with ⟨p, hf, hv⟩
  have hm := List.mem_of_find?_eq_some hf
  have hall : ∀ q ∈ decDigits, q.2 ≤ 9 := by decide
  have := hall p hm
  omega

theorem hexDigitVal_le (c : Char) (v : Nat) (h : hexDigitVal c = some v) :
    v ≤ 15 := by
  unfold hexDigitVal at h
  rcases Option.map_eq_some'.mp h with ⟨p, hf, hv⟩
  have hm := List.mem_of_find?_eq_some hf
  have hall : ∀ q ∈ hexDigits, q.2 ≤ 15 := by decide
  have := hall p hm
  omega

theorem parseOctet_lt (s : String) (v : Nat) (h : parseOctet s = some v) :
    v < 256 := by
  unfold parseOctet at h
  split at h
  · have := decDigitVal_le _ _ h
    omega
  · split at h
    · exact absurd h (by simp)
    · split at h
      · rename_i a b ha hb
        have := decDigitVal_le _ _ ha
        have := decDigitVal_le _ _ hb
        injection h with h
        omega
      · exact absurd h (by simp)
  · split at h
    · exact absurd h (by simp)
    · split at h
      · rename_i a b c ha hb hc
        split at h
        · injection h with h
          omega
        · exact absurd h (by simp)
      · exact absurd h (by simp)
  · exact absurd h (by simp)

theorem pton4_some (s : String) (bs : List Nat) (h : pton4 s = some bs) :
    bs.length = 4 ∧ ∀ x ∈ bs, x < 256 := by
  unfold pton4 at h
  split at h
  · split at h
    · rename_i x y z w hx hy hz hw
      injection h with h
      subst h
      refine ⟨rfl, ?_⟩
      intro a ha
      simp only [List.mem_cons, List.not_mem_nil, or_false] at ha
      rcases ha with rfl | rfl | rfl | rfl
      · exact parseOctet_lt _ _ hx
      · exact parseOctet_lt _ _ hy
      · exact parseOctet_lt _ _ hz
      · exact parseOctet_lt _ _ hw
    · exact absurd h (by simp)
  · exact absurd h (by simp)

theorem parseHexGroup_lt (s : String) (v : Nat)
    (h : parseHexGroup s = some v) : v < 65536 := by
  unfold parseHexGroup at h
  split at h
  · have := hexDigitVal_le _ _ h
    omega
  · split at h
    · rename_i a b ha hb
      have := hexDigitVal_le _ _ ha
      have := hexDigitVal_le _ _ hb
      injection h with h
      omega
    · exact absurd h (by simp)
  · split at h
    · rename_i a b c ha hb hc
      have := hexDigitVal_le _ _ ha
      have := hexDigitVal_le _ _ hb
      have := hexDigitVal_le _ _ hc
      injection h with h
      omega
    · exact absurd h (by simp)
  · split at h
    · rename_i a b c d ha hb hc hd
      have := hexDigitVal_le _ _ ha
      have := hexDigitVal_le _ _ hb
      have := hexDigitVal_le _ _ hc
      have := hexDigitVal_le _ _ hd
      injection h with h
      omega
    · exact absurd h (by simp)
  · exact absurd h (by simp)

theorem parseLastGroup_lt (g : String) (vs : List Nat)
    (h : parseLastGroup g = some vs) : ∀ v ∈ vs, v < 65536 := by
  unfold parseLastGroup at h
  split at h
  · split at h
    · rename_i x y z w heq
      obtain ⟨_, hlt⟩ := pton4_some _ _ heq
      injection h with h
      subst h
      have hx : x < 256 := hlt x (by simp)
      have hy : y < 256 := hlt y (by simp)
      have hz : z < 256 := hlt z (by simp)
      have hw : w < 256 := hlt w (by simp)
      intro v hv
      simp only [List.mem_cons, List.not_mem_nil, or_false] at hv
      rcases hv with rfl | rfl <;> omega
    · exact absurd h (by simp)
  · rcases Option.map_eq_some'.mp h with ⟨a, ha, hva⟩
    subst hva
    intro v hv
    simp only [List.mem_cons, List.not_mem_nil, or_false] at hv
    subst hv
    exact parseHexGroup_lt _ _ ha

theorem parseGroupsV4Tail_lt :
    ∀ (gs : List String) (vs : List Nat), parseGroupsV4Tail gs = some vs →
    ∀ v ∈ vs, v < 65536 := by
  intro gs
  induction gs with
  | nil =>
    intro vs h v hv
    injection h with h
    subst h
    simp at hv
  | cons g tail ih =>
    intro vs h v hv
    cases tail with
    | nil => exact parseLastGroup_lt g vs h v hv
    | cons g2 rest =>
      unfold parseGroupsV4Tail at h
      split at h
      · rename_i a as ha has
        injection h with h
        subst h
        simp only [List.mem_cons] at hv
        rcases hv with rfl | hv
        · exact parseHexGroup_lt _ _ ha
        · exact ih as has v hv
      · exact absurd h (by simp)

theorem parseGroupsPlain_lt :
    ∀ (gs : List String) (vs : List Nat), parseGroupsPlain gs = some vs →
    ∀ v ∈ vs, v < 65536 := by
  intro gs
  induction gs with
  | nil =>
    intro vs h v hv
    injection h with h
    subst h
    simp at hv
  | cons g rest ih =>
    intro vs h v hv
    unfold parseGroupsPlain at h
    split at h
    · rename_i a as ha has
      injection h with h
      subst h
      simp only [List.mem_cons] at hv
      rcases hv with rfl | hv
      · exact parseHexGroup_lt _ _ ha
      · exact ih as has v hv
    · exact absurd h (by simp)

theorem wordsToBytes_length (ws : List Nat) :
    (wordsToBytes ws).length = 2 * ws.length := by
  induction ws with
  | nil => rfl
  | cons w rest ih =>
    simp only [wordsToBytes, List.foldr_cons, List.length_cons] at ih ⊢
    omega

theorem wordsToBytes_lt (ws : List Nat) (h : ∀ w ∈ ws, w < 65536) :
    ∀ x ∈ wordsToBytes ws, x < 256 := by
  induction ws with
  | nil => intro x hx; simp [wordsToBytes] at hx
  | cons w rest ih =>
    intro x hx
    have hw : w < 65536 := h w (by simp)
    simp only [wordsToBytes, List.foldr_cons, List.mem_cons] at hx
    rcases hx with rfl | rfl | hx
    · omega
    · omega
    · exact ih (fun a ha => h a (by simp [ha])) x hx

theorem pton6_some (s : String) (bs : List Nat) (h : pton6 s = some bs) :
    bs.length = 16 ∧ ∀ x ∈ bs, x < 256 := by
  unfold pton6 at h
  split at h
  · split at h
    · rename_i vs hvs
      split at h
      · rename_i hlen8
        injection h with h
        subst h
        refine ⟨by rw [wordsToBytes_length, hlen8], ?_⟩
        exact wordsToBytes_lt vs (parseGroupsV4Tail_lt _ _ hvs)
      · exact absurd h (by simp)
    · exact absurd h (by simp)
  · split at h
    · exact absurd h (by simp)
    · split at h
      · rename_i lv rv hlv hrv
        split at h
        · rename_i hle7
          injection h with h
          subst h
          constructor
          · rw [wordsToBytes_length]
            simp only [List.length_append, List.length_replicate]
            omega
          · refine wordsToBytes_lt _ ?_
            intro w hw
            simp only [List.mem_append, List.mem_replicate] at hw
            rcases hw with (hw | hw) | hw
            · exact parseGroupsPlain_lt _ _ hlv w hw
            · omega
            · exact parseGroupsV4Tail_lt _ _ hrv w hw
        · exact absurd h (by simp)
      · exact absurd h (by simp)

theorem ipPton_some (s : String) (bs : List Nat) (h : ipPton s = some bs) :
    (bs.length = 4 ∨ bs.length = 16) ∧ ∀ x ∈ bs, x < 256 := by
  unfold ipPton at h
  split at h
  · rename_i b hb
    injection h with h
    subst h
    obtain ⟨h1, h2⟩ := pton4_some _ _ hb
    exact ⟨Or.inl h1, h2⟩
  · obtain ⟨h1, h2⟩ := pton6_some _ _ h
    exact ⟨Or.inr h1, h2⟩

set_option maxRecDepth 8000 in
/-- Claim C7 (amended): decoding the encoding of an address `a` yields
the canonical `inet_ntop` rendering of `a`'s packed bytes — prefixed with
`0` when that rendering begins with `:` — rather than always `a` itself;
`0.0.0.0` encodes to the literal `*`, and `*` decodes to `0.0.0.0`. -/
theorem unreal_ip_codec :
    (∀ (s : String) (bs : List Nat), ipPton s = some bs →
      ∃ t, encodeIp s = some t ∧
        decodeIp t = some (if bs.length = 4 then ntop4 bs else zfix (ntop6 bs)))
    ∧ encodeIp "0.0.0.0" = some "*"
    ∧ decodeIp "*" = some "0.0.0.0" := by
  refine ⟨?_, by rfl, by rfl⟩
  intro s bs h
  by_cases hz : s = "0.0.0.0"
  · subst hz
    have hv : ipPton "0.0.0.0" = some [0, 0, 0, 0] := by rfl
    rw [hv] at h
    injection h with h
    subst h
    exact ⟨"*", by rfl, by decide⟩
  · obtain ⟨hlen, hlt⟩ := ipPton_some s bs h
    refine ⟨String.mk (b64encodeChars bs), ?_, ?_⟩
    · simp [encodeIp, hz, h]
    · have hrt : b64decodeChars (b64encodeChars bs) = some bs :=
        b64_roundtrip_fuel bs.length bs le_rfl hlt
      have hstar : String.mk (b64encodeChars bs) ≠ "*" := by
        intro he
        have hd : b64encodeChars bs = ['*'] := congrArg String.data he
        have hl : (b64encodeChars bs).length = 1 := by rw [hd]; rfl
        rw [b64encode_length] at hl
        rcases hlen with h4 | h16
        · rw [h4] at hl; omega
        · rw [h16] at hl; omega
      have hdata : (String.mk (b64encodeChars bs)).data = b64encodeChars bs := rfl
      simp only [decodeIp, if_neg hstar, hdata, hrt]
      rcases hlen with h4 | h16
      · rw [if_pos h4, if_pos h4]
      · rw [if_neg (by omega), if_neg (by omega : ¬ bs.length = 4), if_pos h16]

set_option maxRecDepth 8000 in
/-- Counterexample to claim C7 as stated: `::1` is a valid IPv6 address,
yet decoding its encoding yields `0::1`, not `::1` — the leading-colon
guard of `handle_uid` breaks the round-trip for addresses whose canonical
rendering begins with `:`. -/
theorem unreal_ip_roundtrip_cx :
    (ipPton "::1").isSome = true
    ∧ encodeIp "::1" = some "AAAAAAAAAAAAAAAAAAAAAQ=="
    ∧ decodeIp "AAAAAAAAAAAAAAAAAAAAAQ==" = some "0::1"
    ∧ "0::1" ≠ "::1" := by
  refine ⟨by rfl, by rfl, by rfl, by decide⟩

set_option maxRecDepth 8000 in
/-- Witness for the amended C7 theorem at the IPv4 address `1.2.3.4`,
whose canonical rendering is itself: the round-trip closes. -/
theorem unreal_ip_codec_witness :
    encodeIp "1.2.3.4" = some "AQIDBA=="
    ∧ decodeIp "AQIDBA==" = some "1.2.3.4" := by
  obtain ⟨t, ht, hd⟩ := unreal_ip_codec.1 "1.2.3.4" [1, 2, 3, 4] (by rfl)
  have he : encodeIp "1.2.3.4" = some "AQIDBA==" := by rfl
  rw [he] at ht
  injection ht with ht
  subst ht
  have hif : (if ([1, 2, 3, 4] : List Nat).length = 4 then ntop4 [1, 2, 3, 4]
      else zfix (ntop6 [1, 2, 3, 4])) = "1.2.3.4" := by rfl
  rw [hif] at hd
  exact ⟨he, hd⟩

theorem alookup_mem {α : Type u} (l : List (String × α)) (k : String) (v : α)
    (h : alookup l k = some v) : (k, v) ∈ l := by
  unfold alookup at h
  rcases Option.map_eq_some'.mp h with ⟨p, hf, hv⟩
  have hm := List.mem_of_find?_eq_some hf
  have hp := List.find?_some hf
  rcases p with ⟨k0, v0⟩
  simp only [beq_iff_eq] at hp
  subst hp
  subst hv
  exact hm

theorem mem_keysOf {α : Type u} {l : List (String × α)} {k : String} :
    k ∈ keysOf l ↔ ∃ v, (k, v) ∈ l := by
  unfold keysOf
  constructor
  · intro h
    rcases List.mem_map.mp h with ⟨p, hp, he⟩
    rcases p with ⟨a, b⟩
    cases he
    exact ⟨b, hp⟩
  · rintro ⟨v, hv⟩
    exact List.mem_map_of_mem Prod.fst hv

theorem alookup_isSome_iff {α : Type u} (l : List (String × α)) (k : String) :
    (alookup l k).isSome = true ↔ k ∈ keysOf l := by
  constructor
  · intro h
    rcases Option.isSome_iff_exists.mp h with ⟨v, hv⟩
    exact mem_keysOf.mpr ⟨v, alookup_mem l k v hv⟩
  · intro h
    rcases mem_keysOf.mp h with ⟨v, hv⟩
    unfold alookup
    rw [Option.isSome_map']
    rw [List.find?_isSome]
    exact ⟨(k, v), hv, by simp⟩

theorem alookup_eq_none_iff {α : Type u} (l : List (String × α)) (k : String) :
    alookup l k = none ↔ k ∉ keysOf l := by
  rw [← alookup_isSome_iff]
  cases alookup l k <;> simp

theorem alookup_nodup_of_mem {α : Type u} (l : List (String × α)) (k : String)
    (v : α) (hnd : (keysOf l).Nodup) (h : (k, v) ∈ l) : alookup l k = some v := by
  induction l with
  | nil => simp at h
  | cons p t ih =>
    rcases p with ⟨k0, v0⟩
    simp only [keysOf, List.map_cons, List.nodup_cons] at hnd
    rcases List.mem_cons.mp h with he | ht
    · injection he with h1 h2
      subst h1; subst h2
      simp [alookup]
    · have hk : k ∈ keysOf t := mem_keysOf.mpr ⟨v, ht⟩
      have hne : ¬ (k0 = k) := fun he => hnd.1 (he ▸ hk)
      have hb : (k0 == k) = false := by simp [hne]
      have : alookup (⟨k0, v0⟩ :: t) k = alookup t k := by
        simp [alookup, List.find?, hb]
      rw [this]
      exact ih hnd.2 ht

theorem keysOf_filter_not_self {α : Type u} (l : List (String × α)) (x : String) :
    x ∉ keysOf (l.filter (fun p => p.1 ≠ x)) := by
  intro h
  rcases mem_keysOf.mp h with ⟨v, hv⟩
  have h2 := (List.mem_filter.mp hv).2
  simp at h2

theorem keysOf_filter_sublist {α : Type u} (l : List (String × α))
    (q : String × α → Bool) : (keysOf (l.filter q)).Sublist (keysOf l) :=
  (List.filter_sublist l).map Prod.fst

theorem keysOf_map_fst_eq {α : Type u} (l : List (String × α))
    (g : String × α → String × α) (hg : ∀ p, (g p).1 = p.1) :
    keysOf (l.map g) = keysOf l := by
  unfold keysOf
  rw [List.map_map]
  exact List.map_congr_left (fun a _ => hg a)

theorem removeClient_users_sub (st : NetState) (x u : String) (r : UserRec)
    (h : (u, r) ∈ (removeClient st x).users) : (u, r) ∈ st.users :=
  (List.mem_filter.mp h).1

theorem removeClient_absent_self (st : NetState) (x : String) :
    Absent (removeClient st x) x := by
  constructor
  · exact keysOf_filter_not_self st.users x
  · intro p hp
    rcases List.mem_map.mp hp with ⟨q, _, he⟩
    subst he
    intro hmem
    have := (List.mem_filter.mp hmem).2
    simp at this

theorem removeClient_absent_pres (st : NetState) (x u : String)
    (h : Absent st u) : Absent (removeClient st x) u := by
  constructor
  · intro hk
    rcases mem_keysOf.mp hk with ⟨r, hr⟩
    exact h.1 (mem_keysOf.mpr ⟨r, removeClient_users_sub st x u r hr⟩)
  · intro p hp
    rcases List.mem_map.mp hp with ⟨q, hq, he⟩
    subst he
    intro hmem
    have := (List.mem_filter.mp hmem).1
    exact h.2 q hq this

theorem removeClient_channels (st : NetState) (x c : String) (ch1 : ChanRec)
    (h : (c, ch1) ∈ (removeClient st x).channels) :
    ∃ ch, (c, ch) ∈ st.channels ∧ ∀ a ∈ ch1.users, a ∈ ch.users := by
  rcases List.mem_map.mp h with ⟨q, hq, he⟩
  refine ⟨q.2, ?_, ?_⟩
  · have : q.1 = c := congrArg Prod.fst he
    rcases q with ⟨c0, ch0⟩
    cases this
    exact hq
  · intro a ha
    have hu : ch1.users = q.2.users.filter (· ≠ x) := by
      have := congrArg Prod.snd he
      simp only at this
      rw [← this]
    rw [hu] at ha
    exact (List.mem_filter.mp ha).1

theorem removeClient_servers_sub (st : NetState) (x : String) :
    SubSrv (removeClient st x).servers st.servers := by
  intro k v h
  unfold removeClient at h
  simp only at h
  rcases hh : (alookup st.users x).map (·.server) with _ | host
  · rw [hh] at h
    exact ⟨v, h, rfl, rfl, fun u hu => hu⟩
  · rw [hh] at h
    rcases List.mem_map.mp h with ⟨⟨k0, v0⟩, hq, he⟩
    by_cases hqh : k0 = host
    · rw [if_pos hqh] at he
      rw [Prod.mk.injEq] at he
      obtain ⟨h1, h2⟩ := he
      subst h1
      refine ⟨v0, hq, ?_, ?_, ?_⟩
      · rw [← h2]
      · rw [← h2]
      · intro u hu
        rw [← h2] at hu
        exact (List.mem_filter.mp hu).1
    · rw [if_neg hqh] at he
      injection he with h1 h2
      subst h1
      subst h2
      exact ⟨v0, hq, rfl, rfl, fun u hu => hu⟩

theorem removeClient_servers_keys (st : NetState) (x : String) :
    keysOf (removeClient st x).servers = keysOf st.servers := by
  unfold removeClient
  simp only
  rcases hh : (alookup st.users x).map (·.server) with _ | host <;> rw [hh]
  refine keysOf_map_fst_eq _ _ ?_
  intro p
  by_cases hp : p.1 = host <;> simp [hp]

theorem removeClient_stay (st : NetState) (x k : String) (v : SrvRec)
    (hk : (k, v) ∈ st.servers) (u : String) (hu : u ∈ v.users) :
    (∃ v1, (k, v1) ∈ (removeClient st x).servers ∧ u ∈ v1.users) ∨ u = x := by
  by_cases hux : u = x
  · exact Or.inr hux
  · left
    unfold removeClient
    simp only
    rcases hh : (alookup st.users x).map (·.server) with _ | host <;> rw [hh]
    · exact ⟨v, hk, hu⟩
    · by_cases hkh : k = host
      · refine ⟨{ v with users := v.users.filter (· ≠ x) }, ?_, ?_⟩
        · have : (fun p => if p.1 = host then
              (p.1, { p.2 with users := p.2.users.filter (· ≠ x) }) else p) (k, v)
              = (k, { v with users := v.users.filter (· ≠ x) }) := by
            simp [hkh]
          rw [← this]
          exact List.mem_map_of_mem _ hk
        · exact List.mem_filter.mpr ⟨hu, by simp [hux]⟩
      · refine ⟨v, ?_, hu⟩
        have : (fun p => if p.1 = host then
            (p.1, { p.2 with users := p.2.users.filter (· ≠ x) }) else p) (k, v)
            = (k, v) := by
          simp [hkh]
        rw [← this]
        exact List.mem_map_of_mem _ hk

theorem removeClient_user_keys_cases (st : NetState) (x u : String)
    (h1 : u ∈ keysOf st.users) (h2 : u ∉ keysOf (removeClient st x).users) :
    u = x := by
  by_contra hne
  rcases mem_keysOf.mp h1 with ⟨r, hr⟩
  exact h2 (mem_keysOf.mpr ⟨r, List.mem_filter.mpr ⟨hr, by simp [hne]⟩⟩)

theorem removeClient_pres (st : NetState) (x : String) :
    PresOk st (removeClient st x) := by
  refine ⟨rfl, rfl, ?_, ?_, ?_, ?_, ?_⟩
  · exact fun u r => removeClient_users_sub st x u r
  · exact fun c ch1 => removeClient_channels st x c ch1
  · exact removeClient_servers_sub st x
  · rw [removeClient_servers_keys]
  · exact fun u => removeClient_absent_pres st x u

theorem PresOk_refl (st : NetState) : PresOk st st := by
  refine ⟨rfl, rfl, fun u r h => h, fun c ch1 h => ⟨ch1, h, fun a ha => ha⟩,
    fun k v h => ⟨v, h, rfl, rfl, fun u hu => hu⟩, List.Sublist.refl _,
    fun u h => h⟩

theorem PresOk_trans (a b c : NetState) (h1 : PresOk a b) (h2 : PresOk b c) :
    PresOk a c := by
  obtain ⟨s1, u1, us1, ch1, sv1, kl1, ab1⟩ := h1
  obtain ⟨s2, u2, us2, ch2, sv2, kl2, ab2⟩ := h2
  refine ⟨s2.trans s1, u2.trans u1, ?_, ?_, ?_, kl2.trans kl1, ?_⟩
  · exact fun u r h => us1 u r (us2 u r h)
  · intro cc cr h
    rcases ch2 cc cr h with ⟨m, hm, hsub⟩
    rcases ch1 cc m hm with ⟨m0, hm0, hsub0⟩
    exact ⟨m0, hm0, fun x hx => hsub0 x (hsub x hx)⟩
  · intro k v h
    rcases sv2 k v h with ⟨m, hm, e1, e2, hsub⟩
    rcases sv1 k m hm with ⟨m0, hm0, e10, e20, hsub0⟩
    exact ⟨m0, hm0, e1.trans e10, e2.trans e20, fun u hu => hsub0 u (hsub u hu)⟩
  · exact fun u h => ab2 u (ab1 u h)

theorem SubSrv_refl (m : List (String × SrvRec)) : SubSrv m m :=
  fun k v h => ⟨v, h, rfl, rfl, fun u hu => hu⟩

theorem SubSrv_trans (a b c : List (String × SrvRec))
    (h1 : SubSrv a b) (h2 : SubSrv b c) : SubSrv a c := by
  intro k v h
  rcases h1 k v h with ⟨v1, hv1, e1, e2, hs⟩
  rcases h2 k v1 hv1 with ⟨v0, hv0, e10, e20, hs0⟩
  exact ⟨v0, hv0, e1.trans e10, e2.trans e20, fun u hu => hs0 u (hs u hu)⟩

theorem SubSrv_keys_sub (m R : List (String × SrvRec)) (h : SubSrv m R) :
    ∀ k, k ∈ keysOf m → k ∈ keysOf R := by
  intro k hk
  rcases mem_keysOf.mp hk with ⟨v, hv⟩
  rcases h k v hv with ⟨v0, hv0, _⟩
  exact mem_keysOf.mpr ⟨v0, hv0⟩

theorem entry_unique {α : Type u} (l : List (String × α))
    (hnd : (keysOf l).Nodup) (k : String) (a b : α)
    (ha : (k, a) ∈ l) (hb : (k, b) ∈ l) : a = b := by
  have h1 := alookup_nodup_of_mem l k a hnd ha
  have h2 := alookup_nodup_of_mem l k b hnd hb
  rw [h1] at h2
  injection h2

theorem getSID_stable (R m : List (String × SrvRec)) (hres : ResolStable R)
    (hsub : SubSrv m R) (k : String) (hkR : k ∈ keysOf R) : getSID m k = k := by
  have hfind : ∀ q, m.find? (fun p => strLower p.2.name == strLower k) = some q →
      q.1 = k := by
    intro q hf
    have hq := List.find?_some hf
    have hqm := List.mem_of_find?_eq_some hf
    rcases q with ⟨j, v⟩
    rcases hsub j v hqm with ⟨v0, hv0, hname, _, _⟩
    simp only [beq_iff_eq] at hq
    exact hres.2 k hkR (j, v0) hv0 (by rw [← hname]; exact hq)
  rcases hres.1 k hkR with hl | hl
  · by_cases hk : k ∈ keysOf m
    · have hs : (alookup m k).isSome = true := (alookup_isSome_iff m k).mpr hk
      simp [getSID, hl, hs]
    · have hn : alookup m k = none := (alookup_eq_none_iff m k).mpr hk
      rcases hf : m.find? (fun p => strLower p.2.name == strLower k) with _ | q
      · have hf2 := hf
        rw [hl] at hf2
        simp [getSID, hl, hn, hf2]
      · have hf2 := hf
        rw [hl] at hf2
        have := hfind q hf
        simp [getSID, hl, hn, hf2, this]
  · have hnm : strLower k ∉ keysOf m :=
      fun hmem => hl (SubSrv_keys_sub m R hsub (strLower k) hmem)
    have hn : alookup m (strLower k) = none := (alookup_eq_none_iff m _).mpr hnm
    rcases hf : m.find? (fun p => strLower p.2.name == strLower k) with _ | q
    · simp [getSID, hn, hf]
    · have := hfind q hf
      simp [getSID, hn, hf, this]

theorem StayProp_refl (st : NetState) : StayProp st st :=
  fun k v h u hu => Or.inl ⟨v, h, hu⟩

theorem StayProp_trans (a b c : NetState) (h1 : StayProp a b)
    (h2 : StayProp b c) (hp : PresOk b c) : StayProp a c := by
  intro k v h u hu
  rcases h1 k v h u hu with ⟨v1, hv1, hu1⟩ | hab
  · exact h2 k v1 hv1 u hu1
  · exact Or.inr (hp.2.2.2.2.2.2 u hab)

theorem presOk_users_keys (a b : NetState) (hp : PresOk a b) (u : String)
    (h : u ∈ keysOf b.users) : u ∈ keysOf a.users := by
  rcases mem_keysOf.mp h with ⟨r, hr⟩
  exact mem_keysOf.mpr ⟨r, hp.2.2.1 u r hr⟩

theorem presOk_servers_keys (a b : NetState) (hp : PresOk a b) (k : String)
    (h : k ∈ keysOf b.servers) : k ∈ keysOf a.servers :=
  hp.2.2.2.2.2.1.subset h

theorem removeUsers_spec (oldCh : List (String × ChanRec)) :
    ∀ (us : List String) (st : NetState) (accU : List String)
      (accN : List (String × List String)) (st2 : NetState)
      (outU : List String) (outN : List (String × List String)),
    removeUsers oldCh st us accU accN = .ok (st2, outU, outN) →
    outU = accU ++ us
    ∧ PresOk st st2
    ∧ keysOf st2.servers = keysOf st.servers
    ∧ (∀ u ∈ us, u ∈ keysOf st.users ∧ Absent st2 u)
    ∧ (∀ u, u ∈ keysOf st.users → u ∉ keysOf st2.users → u ∈ us)
    ∧ StayProp st st2 := by
  intro us
  induction us with
  | nil =>
    intro st accU accN st2 outU outN h
    unfold removeUsers at h
    injection h with h
    rw [Prod.mk.injEq, Prod.mk.injEq] at h
    obtain ⟨h1, h2, h3⟩ := h
    subst h1; subst h2; subst h3
    refine ⟨by simp, PresOk_refl st, rfl, by simp, ?_, StayProp_refl st⟩
    intro u h1 h2
    exact absurd h1 h2
  | cons u us ih =>
    intro st accU accN st2 outU outN h
    unfold removeUsers at h
    rcases hl : alookup st.users u with _ | urec <;> rw [hl] at h
    · exact absurd h (by simp)
    · obtain ⟨houtU, hpres, hkeys, hforall, hback, hstay⟩ :=
        ih (removeClient st u) (accU ++ [u]) _ st2 outU outN h
      have hum : u ∈ keysOf st.users :=
        mem_keysOf.mpr ⟨urec, alookup_mem st.users u urec hl⟩
      have habs : Absent st2 u :=
        hpres.2.2.2.2.2.2 u (removeClient_absent_self st u)
      refine ⟨by rw [houtU]; simp, ?_, ?_, ?_, ?_, ?_⟩
      · exact PresOk_trans _ _ _ (removeClient_pres st u) hpres
      · rw [hkeys, removeClient_servers_keys]
      · intro w hw
        rcases List.mem_cons.mp hw with rfl | hw2
        · exact ⟨hum, habs⟩
        · obtain ⟨hw3, hw4⟩ := hforall w hw2
          exact ⟨presOk_users_keys _ _ (removeClient_pres st u) w hw3, hw4⟩
      · intro w h1 h2
        by_cases hw : w ∈ keysOf (removeClient st u).users
        · exact List.mem_cons_of_mem u (hback w hw h2)
        · have := removeClient_user_keys_cases st u w h1 hw
          subst this
          exact List.mem_cons_self w us
      · intro k v hk x hx
        rcases removeClient_stay st u k v hk x hx with ⟨v1, hv1, hx1⟩ | hxu
        · exact hstay k v1 hv1 x hx1
        · subst hxu
          exact Or.inr habs

theorem childLoop_main (R : List (String × SrvRec)) (hres : ResolStable R)
    (f : NetState → String → String → Option (Except SqErr (NetState × Option SqPayload)))
    (hf : SquitIH R f) (split : String) :
    ∀ (entries : List (String × SrvRec)) (st st2 : NetState) (acc : List String),
    SubSrv entries R → SubSrv st.servers R → (keysOf st.servers).Nodup →
    childLoop f split st entries = some (.ok (st2, acc)) →
    PresOk st st2
    ∧ (∀ c v, (c, v) ∈ entries → v.uplink = some split → c ∉ keysOf st2.servers)
    ∧ StayProp st st2
    ∧ (∀ u, u ∈ acc ↔ u ∈ keysOf st.users ∧ u ∉ keysOf st2.users)
    ∧ (∀ k v j, (k, v) ∈ st.servers → v.uplink = some j →
        j ∈ keysOf st.servers → j ∉ keysOf st2.servers → k ∉ keysOf st2.servers) := by
  intro entries
  induction entries with
  | nil =>
    intro st st2 acc hse hss hnd h
    unfold childLoop at h
    injection h with h
    injection h with h
    rw [Prod.mk.injEq] at h
    obtain ⟨h1, h2⟩ := h
    subst h1; subst h2
    refine ⟨PresOk_refl st, by simp, StayProp_refl st, ?_, ?_⟩
    · intro u
      simp only [List.not_mem_nil, false_iff]
      intro hc
      exact hc.2 hc.1
    · intro k v j _ _ h3 h4
      exact absurd h3 h4
  | cons e rest ih =>
    intro st st2 acc hse hss hnd h
    rcases e with ⟨c, v⟩
    have hseRest : SubSrv rest R := fun k w hw => hse k w (List.mem_cons_of_mem _ hw)
    unfold childLoop at h
    by_cases hup : v.uplink = some split
    · rw [if_pos hup] at h
      split at h
      · exact absurd h (by simp)
      · exact absurd h (by simp)
      · exact absurd h (by simp)
      · rename_i stm pc hcall
        split at h
        · exact absurd h (by simp)
        · exact absurd h (by simp)
        · rename_i st2x accx hcl
          injection h with h
          injection h with h
          rw [Prod.mk.injEq] at h
          obtain ⟨h1, h2⟩ := h
          subst h1; subst h2
          obtain ⟨hpres1, htr1, hstay1, hiff1, hH21⟩ := hf st c _ stm pc hss hnd hcall
          have hsubm : SubSrv stm.servers R :=
            SubSrv_trans _ _ _ hpres1.2.2.2.2.1 hss
          have hndm : (keysOf stm.servers).Nodup :=
            List.Nodup.sublist hpres1.2.2.2.2.2.1 hnd
          obtain ⟨hpres2, hchild2, hstay2, hiff2, hH22⟩ :=
            ih stm _ _ hseRest hsubm hndm hcl
          refine ⟨PresOk_trans _ _ _ hpres1 hpres2, ?_,
            StayProp_trans _ _ _ hstay1 hstay2 hpres2, ?_, ?_⟩
          · intro c0 v0 hc0 hup0
            rcases List.mem_cons.mp hc0 with he | hc0r
            · injection he with he1 he2
              subst he1
              by_cases hcm : c0 ∈ keysOf st.servers
              · have hout := htr1 hcm
                intro hmem
                exact hout (presOk_servers_keys _ _ hpres2 c0 hmem)
              · intro hmem
                exact hcm (presOk_servers_keys _ _
                  (PresOk_trans _ _ _ hpres1 hpres2) c0 hmem)
            · exact hchild2 c0 v0 hc0r hup0
          · intro w
            constructor
            · intro hw
              rcases List.mem_append.mp hw with hw1 | hw2
              · obtain ⟨ha, hb⟩ := (hiff1 w).mp hw1
                exact ⟨ha, fun hmem => hb (presOk_users_keys _ _ hpres2 w hmem)⟩
              · obtain ⟨ha, hb⟩ := (hiff2 w).mp hw2
                exact ⟨presOk_users_keys _ _ hpres1 w ha, hb⟩
            · rintro ⟨h1, h2⟩
              by_cases hm : w ∈ keysOf stm.users
              · exact List.mem_append.mpr (Or.inr ((hiff2 w).mpr ⟨hm, h2⟩))
              · exact List.mem_append.mpr (Or.inl ((hiff1 w).mpr ⟨h1, hm⟩))
          · intro k w j hk hwj hjin hjout
            by_cases hjm : j ∈ keysOf stm.servers
            · by_cases hkm : k ∈ keysOf stm.servers
              · rcases mem_keysOf.mp hkm with ⟨w1, hw1⟩
                rcases hpres1.2.2.2.2.1 k w1 hw1 with ⟨w0, hw0, _, hup1, _⟩
                have hww : w0 = w := entry_unique st.servers hnd k w0 w hw0 hk
                rw [hww] at hup1
                exact hH22 k w1 j hw1 (hup1.trans hwj) hjm hjout
              · intro hmem
                exact hkm (presOk_servers_keys _ _ hpres2 k hmem)
            · have hknotm := hH21 k w j hk hwj hjin hjm
              intro hmem
              exact hknotm (presOk_servers_keys _ _ hpres2 k hmem)
    · rw [if_neg hup] at h
      obtain ⟨hpres2, hchild2, hstay2, hiff2, hH22⟩ := ih st st2 acc hseRest hss hnd h
      refine ⟨hpres2, ?_, hstay2, hiff2, hH22⟩
      intro c0 v0 hc0 hup0
      rcases List.mem_cons.mp hc0 with he | hc0r
      · injection he with he1 he2
        subst he1; subst he2
        exact absurd hup0 hup
      · exact hchild2 c0 v0 hc0r hup0

theorem squit_main (R : List (String × SrvRec)) (hres : ResolStable R) :
    ∀ (fuel : Nat) (st : NetState) (target reason : String)
      (st1 : NetState) (p : SqPayload),
    SubSrv st.servers R → (keysOf st.servers).Nodup →
    squitGo fuel st target reason = some (.ok (st1, some p)) →
    PresOk st st1
    ∧ getSID st.servers target ∉ keysOf st1.servers
    ∧ StayProp st st1
    ∧ (∀ u, u ∈ p.users ↔ u ∈ keysOf st.users ∧ u ∉ keysOf st1.users)
    ∧ (∀ k v j, (k, v) ∈ st.servers → v.uplink = some j →
        j ∈ keysOf st.servers → j ∉ keysOf st1.servers → k ∉ keysOf st1.servers) := by
  intro fuel
  induction fuel with
  | zero =>
    intro st target reason st1 p hss hnd h
    exact absurd h (by simp [squitGo])
  | succ fuel ih =>
    intro st target reason st1 p hss hnd h
    have hIH : SquitIH R (squitGo fuel) := by
      intro st0 t m st10 p0 hss0 hnd0 h0
      obtain ⟨a, b, c, d, e⟩ := ih st0 t m st10 p0 hss0 hnd0 h0
      refine ⟨a, ?_, c, d, e⟩
      intro htm
      have hgs : getSID st0.servers t = t := getSID_stable R st0.servers hres hss0 t
        (SubSrv_keys_sub _ _ hss0 t htm)
      rw [hgs] at b
      exact b
    unfold squitGo at h
    split at h
    · exact absurd h (by simp)
    · split at h
      · exact absurd h (by simp)
      · rename_i s0 hs0
        split at h
        · exact absurd h (by simp)
        · exact absurd h (by simp)
        · rename_i stc childUsers hcl
          split at h
          · exact absurd h (by simp)
          · rename_i srv hsrv
            split at h
            · exact absurd h (by simp)
            · rename_i st2 directUsers nicks hru
              split at h
              · exact absurd h (by simp)
              · rename_i serverdata hsd
                injection h with h
                injection h with h
                rw [Prod.mk.injEq] at h
                obtain ⟨h1, h2⟩ := h
                injection h2 with h2
                subst h1
                subst h2
                obtain ⟨hpresC, hchildC, hstayC, hiffC, hH2C⟩ :=
                  childLoop_main R hres (squitGo fuel) hIH
                    (getSID st.servers target) st.servers st stc childUsers
                    hss hss hnd hcl
                obtain ⟨houtU, hpresU, hkeysU, hforallU, hbackU, hstayU⟩ :=
                  removeUsers_spec st.channels srv.users stc [] [] st2
                    directUsers nicks hru
                have hndc : (keysOf stc.servers).Nodup :=
                  List.Nodup.sublist hpresC.2.2.2.2.2.1 hnd
                have hdirect : directUsers = srv.users := by
                  rw [houtU]; simp
                have presF : PresOk st2
                    { st2 with servers :=
                        st2.servers.filter (fun q => q.1 ≠ getSID st.servers target) } := by
                  refine ⟨rfl, rfl, fun u r hr => hr,
                    fun c ch1 hc => ⟨ch1, hc, fun a ha => ha⟩, ?_,
                    keysOf_filter_sublist _ _, ?_⟩
                  · intro k v hk
                    exact ⟨v, (List.mem_filter.mp hk).1, rfl, rfl, fun u hu => hu⟩
                  · intro u ha
                    exact ha
                have stayF : StayProp st2
                    { st2 with servers :=
                        st2.servers.filter (fun q => q.1 ≠ getSID st.servers target) } := by
                  intro k v hk u hu
                  by_cases hks : k = getSID st.servers target
                  · rcases hpresU.2.2.2.2.1 k v hk with ⟨v0, hv0, _, _, husub⟩
                    have hv0srv : v0 = srv := by
                      apply entry_unique stc.servers hndc k v0 srv hv0
                      rw [hks]
                      exact alookup_mem _ _ _ hsrv
                    right
                    have hus : u ∈ srv.users := hv0srv ▸ husub u hu
                    exact (hforallU u hus).2
                  · left
                    exact ⟨v, List.mem_filter.mpr ⟨hk, by simp [hks]⟩, hu⟩
                have hnotmem : getSID st.servers target ∉ keysOf
                    (st2.servers.filter (fun q => q.1 ≠ getSID st.servers target)) :=
                  keysOf_filter_not_self _ _
                refine ⟨PresOk_trans _ _ _ (PresOk_trans _ _ _ hpresC hpresU) presF,
                  hnotmem, ?_, ?_, ?_⟩
                · exact StayProp_trans _ _ _
                    (StayProp_trans _ _ _ hstayC hstayU hpresU) stayF presF
                · intro u
                  show u ∈ childUsers ++ directUsers ↔ _
                  rw [hdirect]
                  constructor
                  · intro hw
                    rcases List.mem_append.mp hw with hw1 | hw2
                    · obtain ⟨ha, hb⟩ := (hiffC u).mp hw1
                      exact ⟨ha, fun hmem =>
                        hb (presOk_users_keys _ _ hpresU u hmem)⟩
                    · obtain ⟨ha, hb⟩ := hforallU u hw2
                      exact ⟨presOk_users_keys _ _ hpresC u ha, hb.1⟩
                  · rintro ⟨h1, h2⟩
                    by_cases hm : u ∈ keysOf stc.users
                    · exact List.mem_append.mpr (Or.inr (hbackU u hm h2))
                    · exact List.mem_append.mpr (Or.inl ((hiffC u).mpr ⟨h1, hm⟩))
                · intro k v j hk hupj hjin hjout
                  by_cases hj : j = getSID st.servers target
                  · subst hj
                    have hkc : k ∉ keysOf stc.servers := hchildC k v hk hupj
                    intro hmem
                    apply hkc
                    rw [← hkeysU]
                    exact (keysOf_filter_sublist _ _).subset hmem
                  · have hj2 : j ∉ keysOf st2.servers := by
                      intro hjm
                      rcases mem_keysOf.mp hjm with ⟨vj, hvj⟩
                      exact hjout (mem_keysOf.mpr
                        ⟨vj, List.mem_filter.mpr ⟨hvj, by simp [hj]⟩⟩)
                    have hjc : j ∉ keysOf stc.servers := by
                      rw [← hkeysU]; exact hj2
                    have hk2 := hH2C k v j hk hupj hjin hjc
                    intro hmem
                    apply hk2
                    rw [← hkeysU]
                    exact (keysOf_filter_sublist _ _).subset hmem

theorem reachesUp_mem (m : List (String × SrvRec)) (root k : String)
    (h : ReachesUp m root k) : k ∈ keysOf m := by
  cases h with
  | direct a v hm _ => exact mem_keysOf.mpr ⟨v, hm⟩
  | step a v j hm _ _ => exact mem_keysOf.mpr ⟨v, hm⟩

theorem squit_target_mem (fuel : Nat) (st : NetState) (target reason : String)
    (st1 : NetState) (p : SqPayload)
    (hrun : squitGo fuel st target reason = some (.ok (st1, some p))) :
    getSID st.servers target ∈ keysOf st.servers := by
  cases fuel with
  | zero => exact absurd hrun (by simp [squitGo])
  | succ f =>
    unfold squitGo at hrun
    split at hrun
    · exact absurd hrun (by simp)
    · split at hrun
      · exact absurd hrun (by simp)
      · rename_i s0 hs0
        exact mem_keysOf.mpr ⟨s0, alookup_mem _ _ _ hs0⟩

/-- Claim C1: once `_squit` on a target resolving to neither the own SID
nor the uplink returns a payload, (1) no surviving server's uplink chain
reaches the split server, (2) the split server and every server that
transitively uplinked to it is gone from the server map and every user
either of those servers hosted is gone from the user map and from every
channel membership, and (3) the payload's `users` list holds exactly the
removed UIDs, recursively split leaves included. -/
theorem squit_closure (fuel : Nat) (st : NetState) (target reason : String)
    (st1 : NetState) (p : SqPayload)
    (hres : ResolStable st.servers)
    (hnd : (keysOf st.servers).Nodup)
    (hrun : squitGo fuel st target reason = some (.ok (st1, some p))) :
    (∀ k, ¬ ReachesUp st1.servers (getSID st.servers target) k)
    ∧ (∀ k, (k = getSID st.servers target
          ∨ ReachesUp st.servers (getSID st.servers target) k) →
        k ∉ keysOf st1.servers
        ∧ ∀ v, (k, v) ∈ st.servers → ∀ u ∈ v.users, Absent st1 u)
    ∧ (∀ u, u ∈ p.users ↔ (u ∈ keysOf st.users ∧ u ∉ keysOf st1.users)) := by
  obtain ⟨hpres, hnotmem, hstay, hiff, hH2⟩ :=
    squit_main st.servers hres fuel st target reason st1 p (SubSrv_refl _) hnd hrun
  have hSmem : getSID st.servers target ∈ keysOf st.servers :=
    squit_target_mem fuel st target reason st1 p hrun
  have hreach_rem : ∀ k, ReachesUp st.servers (getSID st.servers target) k →
      k ∉ keysOf st1.servers := by
    intro k hk
    induction hk with
    | direct a v hm hup => exact hH2 a v _ hm hup hSmem hnotmem
    | step a v j hm hup hr ihr => exact hH2 a v j hm hup (reachesUp_mem _ _ _ hr) ihr
  have hrem : ∀ k, (k = getSID st.servers target
      ∨ ReachesUp st.servers (getSID st.servers target) k) →
      k ∉ keysOf st1.servers := by
    intro k hk
    rcases hk with rfl | hk
    · exact hnotmem
    · exact hreach_rem k hk
  refine ⟨?_, ?_, hiff⟩
  · intro k hk
    induction hk with
    | direct a v hm hup =>
      rcases hpres.2.2.2.2.1 a v hm with ⟨v0, hv0, _, hupeq, _⟩
      have hra : ReachesUp st.servers (getSID st.servers target) a :=
        ReachesUp.direct a v0 hv0 (by rw [← hupeq]; exact hup)
      exact hreach_rem a hra (mem_keysOf.mpr ⟨v, hm⟩)
    | step a v j hm hup hr ihr => exact ihr
  · intro k hk
    refine ⟨hrem k hk, ?_⟩
    intro v hv u hu
    rcases hstay k v hv u hu with ⟨v2, hv2, _⟩ | habs
    · exact absurd (mem_keysOf.mpr ⟨v2, hv2⟩) (hrem k hk)
    · exact habs

set_option maxRecDepth 8000 in
/-- Witness for C1: SQUITting `aaa` out of the chain `9py -> aaa -> bbb`
removes the leaf `bbb`, erases its user `u2` from the user map and from
`#c`, and reports exactly the vanished UIDs. -/
theorem squit_closure_witness :
    "bbb" ∉ keysOf (Prod.fst squitC1res).servers
    ∧ Absent (Prod.fst squitC1res) "u2"
    ∧ ("u2" ∈ (Prod.snd squitC1res).users ↔
        ("u2" ∈ keysOf stC1.users ∧ "u2" ∉ keysOf (Prod.fst squitC1res).users)) := by
  obtain ⟨h1, h2, h3⟩ :=
    squit_closure 5 stC1 "aaa" "SQUIT test" (Prod.fst squitC1res) (Prod.snd squitC1res)
      (by unfold ResolStable; exact ⟨by decide, by decide⟩) (by decide) (by rfl)
  have hreach : ReachesUp stC1.servers (getSID stC1.servers "aaa") "bbb" :=
    ReachesUp.direct "bbb" bbbRec (by decide) (by decide)
  obtain ⟨hnm, habs⟩ := h2 "bbb" (Or.inr hreach)
  exact ⟨hnm, habs bbbRec (by decide) "u2" (by decide), h3 "u2"⟩

theorem removeUsers_error (oldCh : List (String × ChanRec)) :
    ∀ (us : List String) (st : NetState) (accU : List String)
      (accN : List (String × List String)) (e : SqErr),
    removeUsers oldCh st us accU accN = .error e → e = SqErr.keyErr := by
  intro us
  induction us with
  | nil =>
    intro st accU accN e h
    exact absurd h (by simp [removeUsers])
  | cons u us ih =>
    intro st accU accN e h
    unfold removeUsers at h
    rcases hl : alookup st.users u with _ | urec <;> rw [hl] at h
    · injection h with h
      exact h.symm
    · exact ih _ _ _ e h

theorem presOk_filter_servers (st : NetState) (q : String × SrvRec → Bool) :
    PresOk st { st with servers := st.servers.filter q } := by
  refine ⟨rfl, rfl, fun u r hr => hr,
    fun c ch1 hc => ⟨ch1, hc, fun a ha => ha⟩, ?_, keysOf_filter_sublist _ _, ?_⟩
  · intro k v hk
    exact ⟨v, (List.mem_filter.mp hk).1, rfl, rfl, fun u hu => hu⟩
  · intro u ha
    exact ha

theorem childLoop_presAll
    (f : NetState → String → String → Option (Except SqErr (NetState × Option SqPayload)))
    (hfp : ∀ st t r st1 x, f st t r = some (.ok (st1, x)) → PresOk st st1)
    (split : String) :
    ∀ (entries : List (String × SrvRec)) (st st2 : NetState) (acc : List String),
    childLoop f split st entries = some (.ok (st2, acc)) → PresOk st st2 := by
  intro entries
  induction entries with
  | nil =>
    intro st st2 acc h
    unfold childLoop at h
    injection h with h
    injection h with h
    rw [Prod.mk.injEq] at h
    obtain ⟨h1, _⟩ := h
    subst h1
    exact PresOk_refl st
  | cons e rest ih =>
    intro st st2 acc h
    rcases e with ⟨c, v⟩
    unfold childLoop at h
    by_cases hup : v.uplink = some split
    · rw [if_pos hup] at h
      split at h
      · exact absurd h (by simp)
      · exact absurd h (by simp)
      · exact absurd h (by simp)
      · rename_i stm pc hcall
        split at h
        · exact absurd h (by simp)
        · exact absurd h (by simp)
        · rename_i st2x accx hcl
          injection h with h
          injection h with h
          rw [Prod.mk.injEq] at h
          obtain ⟨h1, _⟩ := h
          subst h1
          exact PresOk_trans _ _ _ (hfp st c _ stm (some pc) hcall) (ih stm _ _ hcl)
    · rw [if_neg hup] at h
      exact ih st st2 acc h

theorem squit_presAll :
    ∀ (fuel : Nat) (st : NetState) (t r : String) (st1 : NetState)
      (x : Option SqPayload),
    squitGo fuel st t r = some (.ok (st1, x)) → PresOk st st1 := by
  intro fuel
  induction fuel with
  | zero =>
    intro st t r st1 x h
    exact absurd h (by simp [squitGo])
  | succ fuel ih =>
    intro st t r st1 x h
    unfold squitGo at h
    split at h
    · exact absurd h (by simp)
    · split at h
      · injection h with h
        injection h with h
        rw [Prod.mk.injEq] at h
        obtain ⟨h1, _⟩ := h
        subst h1
        exact PresOk_refl _
      · rename_i s0 hs0
        split at h
        · exact absurd h (by simp)
        · exact absurd h (by simp)
        · rename_i stc cu hcl
          have hp1 : PresOk st stc :=
            childLoop_presAll (squitGo fuel) ih _ st.servers st stc cu hcl
          split at h
          · exact absurd h (by simp)
          · rename_i srv hsrv
            split at h
            · exact absurd h (by simp)
            · rename_i st2 du nk hru
              have hp2 : PresOk stc st2 :=
                (removeUsers_spec st.channels srv.users stc [] [] st2 du nk hru).2.1
              split at h
              · exact absurd h (by simp)
              · rename_i sd hsd
                injection h with h
                injection h with h
                rw [Prod.mk.injEq] at h
                obtain ⟨h1, _⟩ := h
                subst h1
                exact PresOk_trans _ _ _ (PresOk_trans _ _ _ hp1 hp2)
                  (presOk_filter_servers st2 _)

theorem childLoop_noproto (R : List (String × SrvRec)) (hres : ResolStable R)
    (sid0 up0 : String)
    (hsid : ∀ q ∈ R, Prod.fst q = sid0 → (Prod.snd q).uplink = none)
    (hupl : ∀ q ∈ R, Prod.fst q = up0 → (Prod.snd q).uplink = none)
    (f : NetState → String → String → Option (Except SqErr (NetState × Option SqPayload)))
    (split : String)
    (hfnp : ∀ st t r, SubSrv st.servers R → st.sid = sid0 → st.uplink = up0 →
      getSID st.servers t ≠ sid0 → getSID st.servers t ≠ up0 →
      f st t r ≠ some (.error .protocol))
    (hfp : ∀ st t r st1 x, f st t r = some (.ok (st1, x)) → PresOk st st1) :
    ∀ (entries : List (String × SrvRec)) (st : NetState),
    SubSrv entries R → SubSrv st.servers R → st.sid = sid0 → st.uplink = up0 →
    childLoop f split st entries ≠ some (.error .protocol) := by
  intro entries
  induction entries with
  | nil =>
    intro st _ _ _ _ h
    unfold childLoop at h
    exact absurd h (by simp)
  | cons e rest ih =>
    intro st hse hss hs0 hu0 h
    rcases e with ⟨c, v⟩
    have hseRest : SubSrv rest R := fun k w hw => hse k w (List.mem_cons_of_mem _ hw)
    unfold childLoop at h
    by_cases hup : v.uplink = some split
    · rw [if_pos hup] at h
      rcases hse c v (List.mem_cons_self _ _) with ⟨v0, hv0, _, hupv, _⟩
      have hcsid : c ≠ sid0 := by
        intro he
        have hn := hsid (c, v0) hv0 he
        rw [hupv, hn] at hup
        exact absurd hup (by simp)
      have hcup : c ≠ up0 := by
        intro he
        have hn := hupl (c, v0) hv0 he
        rw [hupv, hn] at hup
        exact absurd hup (by simp)
      have hcRk : c ∈ keysOf R := mem_keysOf.mpr ⟨v0, hv0⟩
      have hgs : getSID st.servers c = c := getSID_stable R st.servers hres hss c hcRk
      split at h
      · exact absurd h (by simp)
      · rename_i e2 hcall
        injection h with h
        injection h with h
        subst h
        exact hfnp st c _ hss hs0 hu0 (by rw [hgs]; exact hcsid)
          (by rw [hgs]; exact hcup) hcall
      · exact absurd h (by simp)
      · rename_i stm pc hcall
        split at h
        · exact absurd h (by simp)
        · rename_i e2 hcl
          injection h with h
          injection h with h
          subst h
          have hp := hfp st c _ stm (some pc) hcall
          exact ih stm hseRest (SubSrv_trans _ _ _ hp.2.2.2.2.1 hss)
            (hp.1.trans hs0) (hp.2.1.trans hu0) hcl
        · exact absurd h (by simp)
    · rw [if_neg hup] at h
      exact ih st hseRest hss hs0 hu0 h

theorem squit_noproto (R : List (String × SrvRec)) (hres : ResolStable R)
    (sid0 up0 : String)
    (hsid : ∀ q ∈ R, Prod.fst q = sid0 → (Prod.snd q).uplink = none)
    (hupl : ∀ q ∈ R, Prod.fst q = up0 → (Prod.snd q).uplink = none) :
    ∀ (fuel : Nat) (st : NetState) (t r : String),
    SubSrv st.servers R → st.sid = sid0 → st.uplink = up0 →
    getSID st.servers t ≠ sid0 → getSID st.servers t ≠ up0 →
    squitGo fuel st t r ≠ some (.error .protocol) := by
  intro fuel
  induction fuel with
  | zero =>
    intro st t r _ _ _ _ _ h
    exact absurd h (by simp [squitGo])
  | succ fuel ih =>
    intro st t r hss hs0 hu0 hne1 hne2 h
    unfold squitGo at h
    split at h
    · rename_i hcond
      rcases hcond with hc | hc
      · exact hne1 (hc.trans hs0)
      · exact hne2 (hc.trans hu0)
    · split at h
      · exact absurd h (by simp)
      · rename_i s0 hs0m
        split at h
        · exact absurd h (by simp)
        · rename_i e2 hcl
          injection h with h
          injection h with h
          subst h
          exact childLoop_noproto R hres sid0 up0 hsid hupl (squitGo fuel) _
            ih (squit_presAll fuel) st.servers st hss hss hs0 hu0 hcl
        · rename_i stc cu hcl
          split at h
          · exact absurd h (by simp)
          · rename_i srv hsrv
            split at h
            · rename_i e2 hru
              injection h with h
              injection h with h
              subst h
              exact absurd (removeUsers_error st.channels srv.users stc [] [] _ hru)
                (by simp)
            · rename_i st2 du nk hru
              split at h
              · exact absurd h (by simp)
              · rename_i sd hsd
                exact absurd h (by simp)

/-- Claim C2: with stable resolution and an uplink-free own/uplink entry
(as on any live link, where both are roots of the local view), `_squit`
raises `ProtocolError` exactly when the resolved target equals the own
SID or the uplink SID; the check precedes every state mutation, so the
error leaves the state untouched. -/
theorem squit_protocol_error_iff (fuel : Nat) (st : NetState)
    (target reason : String)
    (hres : ResolStable st.servers)
    (hsid : ∀ q ∈ st.servers, Prod.fst q = st.sid → (Prod.snd q).uplink = none)
    (hupl : ∀ q ∈ st.servers, Prod.fst q = st.uplink → (Prod.snd q).uplink = none) :
    squitGo (fuel + 1) st target reason = some (.error .protocol)
      ↔ (getSID st.servers target = st.sid ∨ getSID st.servers target = st.uplink) := by
  constructor
  · intro h
    by_contra hn
    push_neg at hn
    exact squit_noproto st.servers hres st.sid st.uplink hsid hupl (fuel + 1)
      st target reason (SubSrv_refl _) rfl rfl hn.1 hn.2 h
  · intro hc
    unfold squitGo
    rw [if_pos hc]

/-- Witness for C2: on `stC2` the target `9PY` resolves (via the
original-text fallback) to the own SID, so the SQUIT raises
`ProtocolError`. -/
theorem squit_protocol_error_iff_witness :
    squitGo 3 stC2 "9PY" "bye" = some (.error SqErr.protocol) :=
  (squit_protocol_error_iff 2 stC2 "9PY" "bye"
      (by unfold ResolStable; exact ⟨by decide, by decide⟩)
      (by decide) (by decide)).mpr (Or.inl (by decide))
